import Mathlib

set_option autoImplicit false
set_option maxRecDepth 10000

/-!
Verification of the natural-language specification of
`src/python3/vimspector/debug_adapter_connection.py` (class
`DebugAdapterConnection`) against a shallow embedding of that file.

The embedding is split in three layers, mirroring the source:
* the frame decoder (`OnData`, `_ReadHeaders`, `_ReadBody`) over byte lists;
* the message codec (`_SendMessage` together with a model of `json.dumps`
  with its default `ensure_ascii=True` behaviour);
* the session/ledger layer (`DoRequest`, `DoResponse`, `OnRequestTimeout`,
  `Reset`, `_AbortRequest`, `_OnMessageReceived`, `_KillTimer`).

Python byte strings are modelled as `List Nat` (one entry per byte), Python
unicode strings occurring inside protocol messages as Lean `String`, and a
raised exception as an `Option`/flag result.  Effects on the host (timers,
handler invocations, the transport write, user-visible notifications and the
log statements the claims mention) are modelled as an explicit event trace.
-/

namespace Vimspector

/-- Byte strings are modelled as lists of naturals, one per byte. -/
abbrev Bytes := List Nat

/-- The two bytes of CRLF, i.e. Python `bytes( '\r\n', 'utf-8' )`. -/
def tCRLF : Bytes := [13, 10]

/-- The four bytes of the header terminator `bytes( '\r\n\r\n', 'utf-8' )`. -/
def tSEP : Bytes := [13, 10, 13, 10]

/-- Index of the first occurrence of `sep` in `l`: the byte-level search that
underlies Python `bytes.split( sep, ... )`. -/
def findSeq (sep : Bytes) : Bytes → Option Nat
  | [] => if sep.isPrefixOf ([] : Bytes) then some 0 else none
  | b :: bs =>
    if sep.isPrefixOf (b :: bs) then some 0 else (findSeq sep bs).map (· + 1)

/-- An occurrence of `sep` in `l` starts at index `i`. -/
def OccAt (sep l : Bytes) (i : Nat) : Prop := sep.isPrefixOf (l.drop i) = true

theorem findSeq_bound {sep : Bytes} :
    ∀ {l : Bytes} {i : Nat}, findSeq sep l = some i → i + sep.length ≤ l.length := by
  intro l
  induction l with
  | nil =>
    intro i h
    simp only [findSeq] at h
    split at h
    · rename_i hp
      cases sep with
      | nil => simp at h; omega
      | cons a as => simp [List.isPrefixOf] at hp
    · exact absurd h (by simp)
  | cons b bs ih =>
    intro i h
    simp only [findSeq] at h
    split at h
    · rename_i hp
      have hlen : sep.length ≤ (b :: bs).length := List.IsPrefix.length_le
        (List.isPrefixOf_iff_prefix.mp hp)
      simp at h
      omega
    · rcases Option.map_eq_some'.mp h with ⟨j, hj, hi⟩
      have := ih hj
      subst hi
      simp
      omega

theorem findSeq_none_iff {sep : Bytes} (hne : sep ≠ []) :
    ∀ {l : Bytes}, findSeq sep l = none ↔ ∀ i, ¬ OccAt sep l i := by
  intro l
  induction l with
  | nil =>
    simp only [findSeq]
    split
    · rename_i hp
      cases sep with
      | nil => exact absurd rfl hne
      | cons a as => simp [List.isPrefixOf] at hp
    · rename_i hp
      constructor
      · intro _ i
        unfold OccAt
        simp only [List.drop_nil]
        exact fun hc => hp hc
      · intro _; rfl
  | cons b bs ih =>
    simp only [findSeq]
    split
    · rename_i hp
      constructor
      · intro h; exact absurd h (by simp)
      · intro h
        exact absurd hp (h 0)
    · rename_i hp
      constructor
      · intro h i
        have hnone : findSeq sep bs = none := by
          cases hfs : findSeq sep bs with
          | none => rfl
          | some j => rw [hfs] at h; simp at h
        cases i with
        | zero => exact hp
        | succ j =>
          intro hc
          exact (ih.mp hnone) j hc
      · intro h
        have hnone : findSeq sep bs = none := by
          apply ih.mpr
          intro i hc
          exact h (i + 1) hc
        rw [hnone]; rfl

theorem findSeq_some_occ {sep : Bytes} :
    ∀ {l : Bytes} {i : Nat}, findSeq sep l = some i →
      OccAt sep l i ∧ ∀ j, j < i → ¬ OccAt sep l j := by
  intro l
  induction l with
  | nil =>
    intro i h
    simp only [findSeq] at h
    split at h
    · rename_i hp
      simp at h
      subst h
      exact ⟨hp, by omega⟩
    · exact absurd h (by simp)
  | cons b bs ih =>
    intro i h
    simp only [findSeq] at h
    split at h
    · rename_i hp
      simp at h
      subst h
      exact ⟨hp, by omega⟩
    · rename_i hp
      rcases Option.map_eq_some'.mp h with ⟨j, hj, hi⟩
      subst hi
      rcases ih hj with ⟨hocc, hmin⟩
      refine ⟨hocc, ?_⟩
      intro k hk
      cases k with
      | zero => exact hp
      | succ k' =>
        intro hc
        exact hmin k' (by omega) hc

theorem findSeq_eq_some_of {sep l : Bytes} {i : Nat} (hne : sep ≠ [])
    (hocc : OccAt sep l i) (hmin : ∀ j, j < i → ¬ OccAt sep l j) :
    findSeq sep l = some i := by
  cases hfs : findSeq sep l with
  | none => exact absurd hocc (((findSeq_none_iff hne).mp hfs) i)
  | some k =>
    rcases findSeq_some_occ hfs with ⟨hok, hkm⟩
    have : k = i := by
      rcases Nat.lt_trichotomy k i with h | h | h
      · exact absurd hok (hmin k h)
      · exact h
      · exact absurd hocc (hkm i h)
    rw [this]

/-- Splitting on CRLF, written with explicit fuel so that it reduces inside
the kernel; each removed separator consumes at least two bytes, so
`l.length + 1` steps always suffice (`splitCRLFAux_congr`). -/
def splitCRLFAux : Nat → Bytes → List Bytes
  | 0, l => [l]
  | fuel + 1, l =>
    match findSeq tCRLF l with
    | none => [l]
    | some i => l.take i :: splitCRLFAux fuel (l.drop (i + 2))

/-- Python `bytes.split( b'\r\n' )`: split on every occurrence of CRLF. -/
def splitCRLF (l : Bytes) : List Bytes := splitCRLFAux (l.length + 1) l

theorem splitCRLFAux_congr :
    ∀ (fuel fuel' : Nat) (l : Bytes), l.length < fuel → l.length < fuel' →
      splitCRLFAux fuel l = splitCRLFAux fuel' l := by
  intro fuel
  induction fuel with
  | zero => intro fuel' l h; omega
  | succ f ih =>
    intro fuel' l h h'
    cases fuel' with
    | zero => omega
    | succ f' =>
      cases hfs : findSeq tCRLF l with
      | none => simp only [splitCRLFAux, hfs]
      | some i =>
        have hb := findSeq_bound hfs
        simp only [tCRLF, List.length_cons, List.length_nil] at hb
        simp only [splitCRLFAux, hfs]
        rw [ih f' (l.drop (i + 2)) (by simp; omega) (by simp; omega)]

/-- `header_line.split( b'\n' )[ -1 ]`: the text after the last line feed. -/
def afterLastLF (l : Bytes) : Bytes :=
  (l.reverse.takeWhile (fun b => b != 10)).reverse

/-- Mirrors the stray line-feed repair in `_ReadHeaders`: when a header line
contains a bare `\n`, keep only `header_line.split( b'\n' )[ -1 ]`. -/
def repairLine (l : Bytes) : Bytes :=
  if l.contains 10 then afterLastLF l else l

/-- ASCII bytes stripped by Python `bytes.strip()`. -/
def isPyWS (b : Nat) : Bool :=
  b == 32 || b == 9 || b == 10 || b == 13 || b == 11 || b == 12

/-- Truthiness of `header_line.strip()`: some byte survives the strip. -/
def hasNonWS (l : Bytes) : Bool := l.any (fun b => !(isPyWS b))

/-- A UTF-8 continuation byte. -/
def isCont (b : Nat) : Bool := 128 ≤ b && b ≤ 191

/-- Validity of a byte string for Python `str( ..., 'utf-8' )`; a `false`
result models the `UnicodeDecodeError` that decoding would raise. -/
def validUtf8 : Bytes → Bool
  | [] => true
  | b :: rest =>
    if b ≤ 127 then validUtf8 rest
    else if 194 ≤ b && b ≤ 223 then
      match rest with
      | c1 :: r => isCont c1 && validUtf8 r
      | [] => false
    else if b == 224 then
      match rest with
      | c1 :: c2 :: r => (160 ≤ c1 && c1 ≤ 191) && isCont c2 && validUtf8 r
      | _ => false
    else if 225 ≤ b && b ≤ 236 then
      match rest with
      | c1 :: c2 :: r => isCont c1 && isCont c2 && validUtf8 r
      | _ => false
    else if b == 237 then
      match rest with
      | c1 :: c2 :: r => (128 ≤ c1 && c1 ≤ 159) && isCont c2 && validUtf8 r
      | _ => false
    else if 238 ≤ b && b ≤ 239 then
      match rest with
      | c1 :: c2 :: r => isCont c1 && isCont c2 && validUtf8 r
      | _ => false
    else if b == 240 then
      match rest with
      | c1 :: c2 :: c3 :: r =>
        (144 ≤ c1 && c1 ≤ 191) && isCont c2 && isCont c3 && validUtf8 r
      | _ => false
    else if 241 ≤ b && b ≤ 243 then
      match rest with
      | c1 :: c2 :: c3 :: r => isCont c1 && isCont c2 && isCont c3 && validUtf8 r
      | _ => false
    else if b == 244 then
      match rest with
      | c1 :: c2 :: c3 :: r =>
        (128 ≤ c1 && c1 ≤ 143) && isCont c2 && isCont c3 && validUtf8 r
      | _ => false
    else false

/-- Value of an ASCII decimal digit byte. -/
def digitVal (b : Nat) : Option Nat :=
  if 48 ≤ b && b ≤ 57 then some (b - 48) else none

def digitsToNatAux : Nat → Bytes → Option Nat
  | acc, [] => some acc
  | acc, b :: r =>
    match digitVal b with
    | some d => digitsToNatAux (acc * 10 + d) r
    | none => none

/-- A non-empty all-digit byte string read as a natural number. -/
def digitsToNat : Bytes → Option Nat
  | [] => none
  | l => digitsToNatAux 0 l

/-- Strip leading and trailing Python whitespace. -/
def stripPyWS (l : Bytes) : Bytes :=
  ((l.dropWhile isPyWS).reverse.dropWhile isPyWS).reverse

/-- Model of Python `int( str )` restricted to ASCII whitespace, an optional
sign and ASCII digits (the source only ever feeds it `Content-Length`
values); `none` models the `ValueError` that `int()` would raise. -/
def pyInt (l : Bytes) : Option Int :=
  match stripPyWS l with
  | 43 :: r => (digitsToNat r).map (fun n => (n : Int))
  | 45 :: r => (digitsToNat r).map (fun n => -(n : Int))
  | r => (digitsToNat r).map (fun n => (n : Int))

/-- Effective start index of a Python slice bound `n` (possibly negative) on
a sequence of length `len`, as used by `buffer[ : n ]` and `buffer[ n : ]`. -/
def pyIdx (n : Int) (len : Nat) : Nat :=
  if n < 0 then ((len : Int) + n).toNat else n.toNat

/-- The header mapping `self._headers`, in Python dict insertion order. -/
abbrev HMap := List (Bytes × Bytes)

/-- Python dict assignment `m[ k ] = v`: replace in place or append. -/
def hupdate : HMap → Bytes → Bytes → HMap
  | [], k, v => [(k, v)]
  | (k0, v0) :: rest, k, v =>
    if k0 = k then (k0, v) :: rest else (k0, v0) :: hupdate rest k v

/-- Python dict lookup. -/
def hlookup : HMap → Bytes → Option Bytes
  | [], _ => none
  | (k0, v0) :: rest, k => if k0 = k then some v0 else hlookup rest k

/-- The bytes of the string `Content-Length`. -/
def CLkey : Bytes := [67, 111, 110, 116, 101, 110, 116, 45, 76, 101, 110, 103, 116, 104]

/-- One iteration of the header-line loop of `_ReadHeaders`: repair a bare
line feed, skip blank lines, decode and split on the first colon.  `none`
models the exception raised when the decode fails or the line has no colon
(`key, value = ....split( ':', 1 )` with one element). -/
def parseHeaderLine (m : HMap) (line : Bytes) : Option HMap :=
  let line := repairLine line
  if hasNonWS line then
    if validUtf8 line then
      match findSeq [58] line with
      | some i => some (hupdate m (line.take i) (line.drop (i + 1)))
      | none => none
    else none
  else some m

/-- The header-block parse of `_ReadHeaders`, folded over the CRLF-split
lines starting from the current `self._headers`. -/
def parseHeaderBlock (block : Bytes) (m0 : HMap) : Option HMap :=
  (splitCRLF block).foldlM parseHeaderLine m0

/-- The two states of `self._state`. -/
inductive DState
  | readingHeader
  | readingBody
deriving DecidableEq, Repr

/-- The decoder-owned state: `self._state`, `self._buffer`, `self._headers`.
Entering `readingHeader` through `_SetState` resets the header map, so the
constructors below always pair `readingHeader` with the map they reset to. -/
structure DecSt where
  dstate : DState
  buffer : Bytes
  headers : HMap
deriving DecidableEq, Repr

/-- Observable outcome of one decoded step: either a payload handed to
`_OnMessageReceived` (JSON decoding and dispatch are modelled separately, at
the session layer, as pure functions of the payload), or the error-level log
emitted when `Content-Length` is missing. -/
inductive DecOut
  | payload (p : Bytes)
  | errMissingCL (hdrs : HMap)
deriving DecidableEq, Repr

/-- `_ReadHeaders`: split the buffer at the first CRLF CRLF; parse the header
block into the header map; chomp the buffer and move to `READ_BODY`.  `none`
models a parse exception propagating out of `OnData`. -/
def ReadHeaders (st : DecSt) : Option DecSt :=
  match findSeq tSEP st.buffer with
  | none => some st
  | some i =>
    match parseHeaderBlock (st.buffer.take i) st.headers with
    | none => none
    | some m => some ⟨DState.readingBody, st.buffer.drop (i + 4), m⟩

/-- `_ReadBody`: on a missing `Content-Length` header log the error, discard
the whole buffer and reset to `READ_HEADER`; otherwise wait for
`content_length` bytes and then deliver exactly that slice. -/
def ReadBody (st : DecSt) : Option (DecSt × List DecOut) :=
  match hlookup st.headers CLkey with
  | none => some (⟨DState.readingHeader, [], []⟩, [DecOut.errMissingCL st.headers])
  | some v =>
    match pyInt v with
    | none => none
    | some n =>
      if (st.buffer.length : Int) < n then some (st, [])
      else
        let i := pyIdx n st.buffer.length
        some (⟨DState.readingHeader, st.buffer.drop i, []⟩,
              [DecOut.payload (st.buffer.take i)])

/-- The `while True` loop of `OnData`.  Each iteration that loops again
strictly decreases `2 * |buffer| + (1 if READ_BODY)`, so the loop always
terminates; it is written with explicit fuel and `OnData` supplies
`2 * |buffer| + 2`, which the measure shows is always enough. -/
def decodeLoop : Nat → DecSt → Option (DecSt × List DecOut)
  | 0, _ => none
  | fuel + 1, st =>
    match (if st.dstate = DState.readingHeader then ReadHeaders st else some st) with
    | none => none
    | some st1 =>
      if st1.dstate = DState.readingBody then
        match ReadBody st1 with
        | none => none
        | some (st2, out) =>
          if st2.dstate = DState.readingHeader then
            match decodeLoop fuel st2 with
            | none => none
            | some (st3, out2) => some (st3, out ++ out2)
          else some (st2, out)
      else some (st1, [])

/-- `OnData`: append the newly received bytes to the buffer and run the
decode loop to quiescence. -/
def OnData (st : DecSt) (data : Bytes) : Option (DecSt × List DecOut) :=
  decodeLoop (2 * (st.buffer ++ data).length + 2)
    ⟨st.dstate, st.buffer ++ data, st.headers⟩

/-- The decoder state set up by `__init__`. -/
def initDecSt : DecSt := ⟨DState.readingHeader, [], []⟩

/-- Feed a list of chunks through `OnData` one at a time, concatenating the
delivered outputs. -/
def feedChunks : DecSt → List Bytes → Option (DecSt × List DecOut)
  | st, [] => some (st, [])
  | st, c :: cs =>
    match OnData st c with
    | none => none
    | some (st1, out) =>
      match feedChunks st1 cs with
      | none => none
      | some (st2, out2) => some (st2, out ++ out2)

/-- One wire frame: a header block followed by `\r\n\r\n` followed by a body. -/
structure Frame where
  hdr : Bytes
  body : Bytes
deriving DecidableEq, Repr

/-- The bytes of one frame on the wire. -/
def Frame.bytes (f : Frame) : Bytes := f.hdr ++ tSEP ++ f.body

/-- The bytes of a whole frame stream. -/
def framesBytes : List Frame → Bytes
  | [] => []
  | f :: fs => f.bytes ++ framesBytes fs

/-- A valid frame: the parser finds the terminator exactly at the end of the
header block (no earlier occurrence, not even one straddling into the
terminator), the header block parses, and its `Content-Length` reads as the
exact body length. -/
def Frame.validb (f : Frame) : Bool :=
  (findSeq tSEP (f.hdr ++ tSEP) == some f.hdr.length) &&
  ((((parseHeaderBlock f.hdr []).bind (fun m => hlookup m CLkey)).bind pyInt) ==
    some (f.body.length : Int))

theorem OccAt_length {sep l : Bytes} {i : Nat} (hne : sep ≠ [])
    (h : OccAt sep l i) : i + sep.length ≤ l.length := by
  unfold OccAt at h
  have hp := List.isPrefixOf_iff_prefix.mp h
  have hlen := List.IsPrefix.length_le hp
  simp at hlen
  by_cases hi : i ≤ l.length
  · omega
  · rw [List.drop_eq_nil_of_le (by omega)] at hp
    cases sep with
    | nil => exact absurd rfl hne
    | cons a as => simp [List.eq_nil_of_prefix_nil hp] at *

theorem OccAt_append_left {sep a b : Bytes} {i : Nat}
    (hle : i + sep.length ≤ a.length) : OccAt sep (a ++ b) i ↔ OccAt sep a i := by
  unfold OccAt
  rw [List.drop_append_of_le_length (by omega)]
  constructor
  · intro h
    have hp := List.isPrefixOf_iff_prefix.mp h
    apply List.isPrefixOf_iff_prefix.mpr
    rw [List.prefix_iff_eq_take] at hp ⊢
    rw [List.take_append_of_le_length (by simp; omega)] at hp
    exact hp
  · intro h
    have hp := List.isPrefixOf_iff_prefix.mp h
    apply List.isPrefixOf_iff_prefix.mpr
    exact hp.trans (List.prefix_append _ _)

theorem OccAt_boundary (sep a b : Bytes) : OccAt sep (a ++ (sep ++ b)) a.length := by
  unfold OccAt
  rw [List.drop_left]
  exact List.isPrefixOf_iff_prefix.mpr (List.prefix_append _ _)

theorem OccAt_of_take {sep l : Bytes} {n i : Nat}
    (h : OccAt sep (l.take n) i) : OccAt sep l i := by
  unfold OccAt at h ⊢
  have hp := List.isPrefixOf_iff_prefix.mp h
  apply List.isPrefixOf_iff_prefix.mpr
  rw [List.drop_take] at hp
  exact hp.trans (List.take_prefix _ _)

/-- A wellformed header block: the first CRLF CRLF in `hdr ++ CRLF CRLF`
sits exactly at the end of `hdr`.  Extending the buffer beyond the
terminator does not move the match. -/
theorem findSeq_wf_append {h r : Bytes}
    (hwf : findSeq tSEP (h ++ tSEP) = some h.length) :
    findSeq tSEP (h ++ (tSEP ++ r)) = some h.length := by
  have hne : tSEP ≠ [] := by simp [tSEP]
  rcases findSeq_some_occ hwf with ⟨_, hmin⟩
  apply findSeq_eq_some_of hne (OccAt_boundary tSEP h r)
  intro j hj hc
  rw [← List.append_assoc] at hc
  rw [OccAt_append_left (by simp [tSEP]; omega)] at hc
  exact hmin j hj hc

/-- No occurrence of the terminator inside a proper prefix of
`hdr ++ CRLF CRLF` when the block is wellformed. -/
theorem findSeq_wf_take {h : Bytes} {n : Nat}
    (hwf : findSeq tSEP (h ++ tSEP) = some h.length) (hn : n < h.length + 4) :
    findSeq tSEP ((h ++ tSEP).take n) = none := by
  have hne : tSEP ≠ [] := by simp [tSEP]
  rcases findSeq_some_occ hwf with ⟨_, hmin⟩
  apply (findSeq_none_iff hne).mpr
  intro i hc
  have hlen : i + tSEP.length ≤ ((h ++ tSEP).take n).length := OccAt_length hne hc
  have hlen2 : ((h ++ tSEP).take n).length ≤ n := by simp
  have hi : i < h.length := by simp [tSEP] at hlen; omega
  exact hmin i hi (OccAt_of_take hc)

theorem findSeq_crlf_append {a : Bytes} (h : findSeq tCRLF a = none) (b : Bytes) :
    findSeq tCRLF (a ++ (tCRLF ++ b)) = some a.length := by
  have hne : tCRLF ≠ [] := by simp [tCRLF]
  apply findSeq_eq_some_of hne (OccAt_boundary tCRLF a b)
  intro j hj hc
  by_cases hj2 : j + 2 ≤ a.length
  · rw [OccAt_append_left (by simp [tCRLF]; omega)] at hc
    exact ((findSeq_none_iff hne).mp h) j hc
  · unfold OccAt at hc
    rw [List.drop_append_of_le_length (by omega)] at hc
    have hlen1 : (a.drop j).length = 1 := by simp; omega
    rcases List.length_eq_one.mp hlen1 with ⟨w, hw⟩
    rw [hw] at hc
    have hp := List.isPrefixOf_iff_prefix.mp hc
    rw [List.prefix_iff_eq_take] at hp
    simp [tCRLF, List.take] at hp

theorem splitCRLF_of_none {a : Bytes} (h : findSeq tCRLF a = none) :
    splitCRLF a = [a] := by
  unfold splitCRLF
  simp only [splitCRLFAux, h]

theorem splitCRLF_append {a : Bytes} (b : Bytes) (h : findSeq tCRLF a = none) :
    splitCRLF (a ++ (tCRLF ++ b)) = a :: splitCRLF b := by
  unfold splitCRLF
  have hfs := findSeq_crlf_append h b
  simp only [splitCRLFAux, hfs]
  have hlen : (a ++ tCRLF).length = a.length + 2 := by simp [tCRLF]
  rw [List.take_append_of_le_length (Nat.le_refl _), List.take_length]
  rw [← List.append_assoc, List.drop_left' hlen]
  rw [splitCRLFAux_congr ((a ++ tCRLF) ++ b).length (b.length + 1) b
    (by simp [tCRLF]; omega) (by omega)]
  rfl

/-- The header map produced by parsing a valid frame's header block starting
from the reset (empty) map. -/
def frameHMap (f : Frame) : HMap :=
  match parseHeaderBlock f.hdr [] with
  | some m => m
  | none => []

theorem validb_wf {f : Frame} (h : f.validb = true) :
    findSeq tSEP (f.hdr ++ tSEP) = some f.hdr.length := by
  unfold Frame.validb at h
  rw [Bool.and_eq_true] at h
  exact eq_of_beq h.1

theorem validb_chain {f : Frame} (h : f.validb = true) :
    ∃ m v, parseHeaderBlock f.hdr [] = some m ∧ hlookup m CLkey = some v ∧
      pyInt v = some (f.body.length : Int) := by
  unfold Frame.validb at h
  rw [Bool.and_eq_true] at h
  have h2 := eq_of_beq h.2
  rw [Option.bind_eq_some] at h2
  rcases h2 with ⟨v, hv, hpi⟩
  rw [Option.bind_eq_some] at hv
  rcases hv with ⟨m, hm, hl⟩
  exact ⟨m, v, hm, hl, hpi⟩

theorem validb_parse {f : Frame} (h : f.validb = true) :
    parseHeaderBlock f.hdr [] = some (frameHMap f) := by
  rcases validb_chain h with ⟨m, v, hm, _, _⟩
  unfold frameHMap
  rw [hm]

theorem validb_CL {f : Frame} (h : f.validb = true) :
    ∃ v, hlookup (frameHMap f) CLkey = some v ∧
      pyInt v = some (f.body.length : Int) := by
  rcases validb_chain h with ⟨m, v, hm, hl, hpi⟩
  unfold frameHMap
  rw [hm]
  exact ⟨v, hl, hpi⟩

theorem ReadHeaders_quiet {st : DecSt} (h : findSeq tSEP st.buffer = none) :
    ReadHeaders st = some st := by
  unfold ReadHeaders
  rw [h]

theorem ReadHeaders_frame {s : DState} {hd z : Bytes} {m0 m : HMap}
    (hwf : findSeq tSEP (hd ++ tSEP) = some hd.length)
    (hp : parseHeaderBlock hd m0 = some m) :
    ReadHeaders ⟨s, hd ++ (tSEP ++ z), m0⟩ = some ⟨DState.readingBody, z, m⟩ := by
  unfold ReadHeaders
  have hfs : findSeq tSEP (hd ++ (tSEP ++ z)) = some hd.length :=
    findSeq_wf_append hwf
  simp only [hfs]
  rw [List.take_append_of_le_length (Nat.le_refl _), List.take_length, hp]
  have hlen : (hd ++ tSEP).length = hd.length + 4 := by simp [tSEP]
  rw [← List.append_assoc, List.drop_left' hlen]

/-- The partially received tail of a frame stream at a quiescent decoder
state: either part of a header block with no terminator yet, or a parsed
header waiting for the rest of the body. -/
inductive RemSpec
  | part (r : Bytes)
  | mid (h : Frame) (b : Bytes)

/-- The bytes of the remnant. -/
def RemSpec.bytes : RemSpec → Bytes
  | part r => r
  | mid h b => h.hdr ++ (tSEP ++ b)

/-- The decoder state a remnant leaves behind. -/
def RemSpec.state : RemSpec → DecSt
  | part r => ⟨DState.readingHeader, r, []⟩
  | mid h b => ⟨DState.readingBody, b, frameHMap h⟩

/-- Wellformedness of a remnant. -/
def RemSpec.okb : RemSpec → Bool
  | part r => findSeq tSEP r == none
  | mid h b => h.validb && decide (b.length < h.body.length)

theorem framesBytes_length : ∀ gs : List Frame, gs.length ≤ (framesBytes gs).length := by
  intro gs
  induction gs with
  | nil => simp [framesBytes]
  | cons g gs ih =>
    simp only [framesBytes, Frame.bytes, List.length_append, List.length_cons]
    simp [tSEP] at *
    omega

/-- Running the decode loop from `READ_HEADER` over any number of complete
valid frames followed by a wellformed remnant delivers exactly the frame
bodies, in order, and leaves the remnant's state. -/
theorem decodeLoop_frames :
    ∀ (gs : List Frame) (fuel : Nat) (rem : RemSpec),
      gs.all Frame.validb = true → rem.okb = true → gs.length < fuel →
      decodeLoop fuel ⟨DState.readingHeader, framesBytes gs ++ rem.bytes, []⟩ =
        some (rem.state, gs.map (fun g => DecOut.payload g.body)) := by
  intro gs
  induction gs with
  | nil =>
    intro fuel rem hv hok hfuel
    cases fuel with
    | zero => omega
    | succ fuel' =>
      cases rem with
      | part r =>
        have hnone : findSeq tSEP r = none := by
          simpa [RemSpec.okb] using hok
        simp only [framesBytes, List.nil_append, RemSpec.bytes, RemSpec.state,
          List.map_nil, decodeLoop]
        simp only [if_true]
        rw [@ReadHeaders_quiet ⟨DState.readingHeader, r, []⟩ hnone]
        simp
      | mid h b =>
        have hok2 : h.validb = true ∧ b.length < h.body.length := by
          simpa [RemSpec.okb] using hok
        rcases validb_CL hok2.1 with ⟨v, hlv, hiv⟩
        simp only [framesBytes, List.nil_append, RemSpec.bytes, RemSpec.state,
          List.map_nil, decodeLoop]
        simp only [if_true]
        rw [ReadHeaders_frame (validb_wf hok2.1) (validb_parse hok2.1)]
        simp only [ReadBody, hlv, hiv]
        have hlt : ((b.length : Int) < (h.body.length : Int)) = True := by
          simp
          exact_mod_cast hok2.2
        simp [hlt]
  | cons g gs' ih =>
    intro fuel rem hv hok hfuel
    rw [List.all_cons, Bool.and_eq_true] at hv
    rcases hv with ⟨hg, hgs⟩
    cases fuel with
    | zero => omega
    | succ fuel' =>
      rcases validb_CL hg with ⟨v, hlv, hiv⟩
      have hbytes : framesBytes (g :: gs') ++ rem.bytes =
          g.hdr ++ (tSEP ++ (g.body ++ (framesBytes gs' ++ rem.bytes))) := by
        simp [framesBytes, Frame.bytes, List.append_assoc]
      rw [hbytes]
      simp only [decodeLoop]
      simp only [if_true]
      rw [ReadHeaders_frame (validb_wf hg) (validb_parse hg)]
      simp only [ReadBody, hlv, hiv]
      have hnlt : ¬ (((g.body ++ (framesBytes gs' ++ rem.bytes)).length : Int) <
          (g.body.length : Int)) := by
        simp
        positivity
      rw [if_neg hnlt]
      have hidx : pyIdx (g.body.length : Int)
          (g.body ++ (framesBytes gs' ++ rem.bytes)).length = g.body.length := by
        simp [pyIdx]
      simp only [hidx, List.take_left, List.drop_left]
      rw [ih fuel' rem hgs hok (by simp at hfuel; omega)]
      simp

/-- How a remnant continues into the not-yet-received bytes `q` of the
remaining frames `fs2`. -/
def RemFits (rem : RemSpec) (q : Bytes) (fs2 : List Frame) : Prop :=
  match rem with
  | RemSpec.part r => r ++ q = framesBytes fs2
  | RemSpec.mid h b => ∃ fs3, fs2 = h :: fs3 ∧ b ++ q = h.body ++ framesBytes fs3

/-- Any prefix `p` of a valid frame stream splits into a run of complete
frames followed by a wellformed remnant. -/
theorem streamDecomp :
    ∀ (fs : List Frame) (p q : Bytes), fs.all Frame.validb = true →
      p ++ q = framesBytes fs →
      ∃ (gs fs2 : List Frame) (rem : RemSpec),
        fs = gs ++ fs2 ∧ p = framesBytes gs ++ rem.bytes ∧
        rem.okb = true ∧ RemFits rem q fs2 := by
  intro fs
  induction fs with
  | nil =>
    intro p q _ heq
    have hl := congrArg List.length heq
    simp [framesBytes] at hl
    rcases hl with ⟨hp, hq⟩
    refine ⟨[], [], RemSpec.part [], rfl, ?_, ?_, ?_⟩
    · simp [framesBytes, RemSpec.bytes, hp]
    · decide
    · simp [RemFits, framesBytes, hq]
  | cons f fs' ih =>
    intro p q hv heq
    rw [List.all_cons, Bool.and_eq_true] at hv
    rcases hv with ⟨hf, hfs⟩
    by_cases hlen : f.bytes.length ≤ p.length
    · -- the whole first frame fits inside p
      have htake : p.take f.bytes.length = f.bytes := by
        have h1 : (p ++ q).take f.bytes.length = p.take f.bytes.length :=
          List.take_append_of_le_length hlen
        rw [heq] at h1
        rw [show framesBytes (f :: fs') = f.bytes ++ framesBytes fs' from rfl] at h1
        rw [List.take_left] at h1
        exact h1.symm
      have hsplit : p = f.bytes ++ p.drop f.bytes.length := by
        conv_lhs => rw [← List.take_append_drop f.bytes.length p]
        rw [htake]
      have hrest : p.drop f.bytes.length ++ q = framesBytes fs' := by
        apply @List.append_cancel_left _ f.bytes _ _
        rw [← List.append_assoc, ← hsplit, heq]
        rfl
      rcases ih (p.drop f.bytes.length) q hfs hrest with
        ⟨gs, fs2, rem, hfs2, hp2, hok, hfits⟩
      refine ⟨f :: gs, fs2, rem, by rw [hfs2]; rfl, ?_, hok, hfits⟩
      rw [hsplit, hp2]
      simp [framesBytes, List.append_assoc]
    · -- p ends inside the first frame
      push_neg at hlen
      have hfb : f.bytes = (f.hdr ++ tSEP) ++ f.body := by
        simp [Frame.bytes]
      by_cases hsmall : p.length < f.hdr.length + 4
      · -- p ends inside the header block or its terminator
        have hptake : p = ((f.hdr ++ tSEP) ++ (f.body ++ framesBytes fs')).take p.length := by
          have h1 : (p ++ q).take p.length = p := by
            rw [List.take_append_of_le_length (Nat.le_refl _), List.take_length]
          rw [heq] at h1
          rw [show framesBytes (f :: fs') =
            (f.hdr ++ tSEP) ++ (f.body ++ framesBytes fs') from by
              simp [framesBytes, Frame.bytes, List.append_assoc]] at h1
          exact h1.symm
        have hpt2 : p = (f.hdr ++ tSEP).take p.length := by
          conv_lhs => rw [hptake]
          rw [List.take_append_of_le_length (by simp [tSEP]; omega)]
        have hnone : findSeq tSEP p = none := by
          rw [hpt2]
          exact findSeq_wf_take (validb_wf hf) hsmall
        refine ⟨[], f :: fs', RemSpec.part p, rfl, ?_, ?_, ?_⟩
        · simp [framesBytes, RemSpec.bytes]
        · simp [RemSpec.okb, hnone]
        · simpa [RemFits] using heq
      · -- the header block and terminator fit; p ends inside the body
        push_neg at hsmall
        have hhdr4 : (f.hdr ++ tSEP).length = f.hdr.length + 4 := by simp [tSEP]
        have hptake : (p ++ q).take (f.hdr.length + 4) = f.hdr ++ tSEP := by
          rw [heq]
          rw [show framesBytes (f :: fs') =
            (f.hdr ++ tSEP) ++ (f.body ++ framesBytes fs') from by
              simp [framesBytes, Frame.bytes, List.append_assoc]]
          exact List.take_left' hhdr4
        have hptake2 : p.take (f.hdr.length + 4) = f.hdr ++ tSEP := by
          rw [← List.take_append_of_le_length hsmall, hptake]
        have hsplit : p = (f.hdr ++ tSEP) ++ p.drop (f.hdr.length + 4) := by
          conv_lhs => rw [← List.take_append_drop (f.hdr.length + 4) p]
          rw [hptake2]
        have hblen : (p.drop (f.hdr.length + 4)).length < f.body.length := by
          have : f.bytes.length = f.hdr.length + 4 + f.body.length := by
            simp [Frame.bytes, tSEP]
            omega
          simp
          omega
        have hfits : p.drop (f.hdr.length + 4) ++ q = f.body ++ framesBytes fs' := by
          apply @List.append_cancel_left _ (f.hdr ++ tSEP) _ _
          rw [← List.append_assoc, ← hsplit, heq]
          simp [framesBytes, Frame.bytes, List.append_assoc]
        refine ⟨[], f :: fs', RemSpec.mid f (p.drop (f.hdr.length + 4)), rfl, ?_, ?_, ?_⟩
        · rw [show framesBytes [] = ([] : Bytes) from rfl]
          rw [List.nil_append]
          rw [show (RemSpec.mid f (p.drop (f.hdr.length + 4))).bytes =
            f.hdr ++ (tSEP ++ p.drop (f.hdr.length + 4)) from rfl]
          rw [← List.append_assoc]
          exact hsplit
        · simp [RemSpec.okb, hf]
          simp at hblen
          omega
        · exact ⟨fs', rfl, hfits⟩

/-- One unfolding of the decode loop from a `READ_BODY` state: the
header phase is skipped and `_ReadBody` runs first. -/
theorem decodeLoop_body_step (fuel : Nat) (buf : Bytes) (m : HMap) :
    decodeLoop (fuel + 1) ⟨DState.readingBody, buf, m⟩ =
      match ReadBody ⟨DState.readingBody, buf, m⟩ with
      | none => none
      | some (st2, out) =>
        if st2.dstate = DState.readingHeader then
          match decodeLoop fuel st2 with
          | none => none
          | some (st3, out2) => some (st3, out ++ out2)
        else some (st2, out) := rfl

/-- Invariant between two `OnData` calls: the decoder is in a quiescent
remnant state and the bytes yet to arrive complete the frame stream. -/
def InvQ (st : DecSt) (future : Bytes) (fs : List Frame) : Prop :=
  ∃ rem : RemSpec, st = rem.state ∧ rem.okb = true ∧ RemFits rem future fs

theorem OnData_step {st : DecSt} {c fut : Bytes} {fs : List Frame}
    (hv : fs.all Frame.validb = true) (hinv : InvQ st (c ++ fut) fs) :
    ∃ (gs fs2 : List Frame) (st2 : DecSt),
      fs = gs ++ fs2 ∧
      OnData st c = some (st2, gs.map (fun g => DecOut.payload g.body)) ∧
      InvQ st2 fut fs2 := by
  rcases hinv with ⟨rem, hst, hok, hfits⟩
  cases rem with
  | part r =>
    subst hst
    have hfits2 : (r ++ c) ++ fut = framesBytes fs := by
      rw [List.append_assoc]
      exact hfits
    rcases streamDecomp fs (r ++ c) fut hv hfits2 with
      ⟨gs, fs2, rem2, hfs, hp, hok2, hfit3⟩
    refine ⟨gs, fs2, rem2.state, hfs, ?_, ⟨rem2, rfl, hok2, hfit3⟩⟩
    have hgs : gs.all Frame.validb = true := by
      rw [hfs, List.all_append, Bool.and_eq_true] at hv
      exact hv.1
    show decodeLoop (2 * (r ++ c).length + 2)
      ⟨DState.readingHeader, r ++ c, []⟩ =
      some (rem2.state, gs.map (fun g => DecOut.payload g.body))
    rw [show (⟨DState.readingHeader, r ++ c, []⟩ : DecSt) =
      ⟨DState.readingHeader, framesBytes gs ++ rem2.bytes, []⟩ from by rw [hp]]
    apply decodeLoop_frames gs _ rem2 hgs hok2
    have h1 := framesBytes_length gs
    have h2 := congrArg List.length hp
    rw [show (framesBytes gs ++ rem2.bytes).length =
      (framesBytes gs).length + rem2.bytes.length from List.length_append _ _] at h2
    omega
  | mid h b =>
    subst hst
    rcases hfits with ⟨fs3, hfs3, hbody⟩
    have hokm : h.validb = true ∧ b.length < h.body.length := by
      simpa [RemSpec.okb] using hok
    rcases validb_CL hokm.1 with ⟨v, hlv, hiv⟩
    have hbody2 : (b ++ c) ++ fut = h.body ++ framesBytes fs3 := by
      rw [List.append_assoc]
      exact hbody
    by_cases hcl : (b ++ c).length < h.body.length
    · refine ⟨[], fs, ⟨DState.readingBody, b ++ c, frameHMap h⟩, rfl, ?_,
        ⟨RemSpec.mid h (b ++ c), rfl, ?_, ?_⟩⟩
      · show decodeLoop (2 * (b ++ c).length + 2)
          ⟨DState.readingBody, b ++ c, frameHMap h⟩ =
          some (⟨DState.readingBody, b ++ c, frameHMap h⟩, [])
        rw [show 2 * (b ++ c).length + 2 = (2 * (b ++ c).length + 1) + 1 from rfl,
          decodeLoop_body_step]
        simp only [ReadBody, hlv, hiv]
        have hlt : ((b ++ c).length : Int) < (h.body.length : Int) := by
          exact_mod_cast hcl
        rw [if_pos hlt]
        rfl
      · simp only [RemSpec.okb, hokm.1, Bool.true_and, decide_eq_true_eq]
        exact hcl
      · exact ⟨fs3, hfs3, hbody2⟩
    · push_neg at hcl
      have htake : (b ++ c).take h.body.length = h.body := by
        have h1 : ((b ++ c) ++ fut).take h.body.length = (b ++ c).take h.body.length :=
          List.take_append_of_le_length hcl
        rw [hbody2, List.take_left] at h1
        exact h1.symm
      have hjoin : h.body ++ (b ++ c).drop h.body.length = b ++ c := by
        conv_rhs => rw [← List.take_append_drop h.body.length (b ++ c)]
        rw [htake]
      have hdrop : (b ++ c).drop h.body.length ++ fut = framesBytes fs3 := by
        apply @List.append_cancel_left _ h.body _ _
        rw [← List.append_assoc, hjoin]
        exact hbody2
      have hv3 : fs3.all Frame.validb = true := by
        rw [hfs3, List.all_cons, Bool.and_eq_true] at hv
        exact hv.2
      rcases streamDecomp fs3 ((b ++ c).drop h.body.length) fut hv3 hdrop with
        ⟨gs', fs2, rem2, hfs2, hp2, hok2, hfit3⟩
      refine ⟨h :: gs', fs2, rem2.state, by rw [hfs3, hfs2]; rfl, ?_,
        ⟨rem2, rfl, hok2, hfit3⟩⟩
      show decodeLoop (2 * (b ++ c).length + 2)
        ⟨DState.readingBody, b ++ c, frameHMap h⟩ =
        some (rem2.state, (h :: gs').map (fun g => DecOut.payload g.body))
      rw [show 2 * (b ++ c).length + 2 = (2 * (b ++ c).length + 1) + 1 from rfl,
        decodeLoop_body_step]
      simp only [ReadBody, hlv, hiv]
      have hnlt : ¬ (((b ++ c).length : Int) < (h.body.length : Int)) := by
        exact_mod_cast Nat.not_lt.mpr hcl
      rw [if_neg hnlt]
      have hidx : pyIdx (h.body.length : Int) (b ++ c).length = h.body.length := by
        simp [pyIdx]
      simp only [hidx, htake]
      have hgs' : gs'.all Frame.validb = true := by
        rw [hfs2, List.all_append, Bool.and_eq_true] at hv3
        exact hv3.1
      have hrec : decodeLoop (2 * (b ++ c).length + 1)
          ⟨DState.readingHeader, (b ++ c).drop h.body.length, []⟩ =
          some (rem2.state, gs'.map (fun g => DecOut.payload g.body)) := by
        rw [show (⟨DState.readingHeader, (b ++ c).drop h.body.length, []⟩ : DecSt) =
          ⟨DState.readingHeader, framesBytes gs' ++ rem2.bytes, []⟩ from by rw [hp2]]
        apply decodeLoop_frames gs' _ rem2 hgs' hok2
        have h1 := framesBytes_length gs'
        have h2 := congrArg List.length hp2
        rw [List.length_drop] at h2
        rw [show (framesBytes gs' ++ rem2.bytes).length =
          (framesBytes gs').length + rem2.bytes.length from List.length_append _ _] at h2
        omega
      rw [hrec]
      simp

theorem InvQ_nil {st : DecSt} {fs : List Frame}
    (hv : fs.all Frame.validb = true) (hinv : InvQ st [] fs) : fs = [] := by
  rcases hinv with ⟨rem, _, hok, hfits⟩
  cases rem with
  | part r =>
    have heq : r = framesBytes fs := by
      have h1 : r ++ [] = framesBytes fs := hfits
      simpa using h1
    cases fs with
    | nil => rfl
    | cons f fs' =>
      exfalso
      have hnone : findSeq tSEP r = none := by simpa [RemSpec.okb] using hok
      have hocc : OccAt tSEP r f.hdr.length := by
        rw [heq]
        rw [show framesBytes (f :: fs') =
          f.hdr ++ (tSEP ++ (f.body ++ framesBytes fs')) from by
            simp [framesBytes, Frame.bytes, List.append_assoc]]
        exact OccAt_boundary tSEP f.hdr (f.body ++ framesBytes fs')
      exact ((findSeq_none_iff (by simp [tSEP])).mp hnone) _ hocc
  | mid h b =>
    exfalso
    rcases hfits with ⟨fs3, _, hbody⟩
    have hokm : h.validb = true ∧ b.length < h.body.length := by
      simpa [RemSpec.okb] using hok
    have := congrArg List.length hbody
    simp at this
    omega

/-- Feeding any chunking of a valid frame stream from a quiescent invariant
state delivers exactly the frame bodies, in order. -/
theorem feedChunks_frames :
    ∀ (chunks : List Bytes) (st : DecSt) (fs : List Frame),
      fs.all Frame.validb = true → InvQ st chunks.flatten fs →
      ∃ st2, feedChunks st chunks =
        some (st2, fs.map (fun f => DecOut.payload f.body)) := by
  intro chunks
  induction chunks with
  | nil =>
    intro st fs hv hinv
    have : fs = [] := InvQ_nil hv (by simpa using hinv)
    subst this
    exact ⟨st, rfl⟩
  | cons c cs ih =>
    intro st fs hv hinv
    have hinv2 : InvQ st (c ++ cs.flatten) fs := by simpa using hinv
    rcases OnData_step hv hinv2 with ⟨gs, fs2, st2, hfs, hdata, hinv3⟩
    have hv2 : fs2.all Frame.validb = true := by
      rw [hfs, List.all_append, Bool.and_eq_true] at hv
      exact hv.2
    rcases ih st2 fs2 hv2 hinv3 with ⟨st3, hfeed⟩
    refine ⟨st3, ?_⟩
    have hstep : feedChunks st (c :: cs) =
        match feedChunks st2 cs with
        | none => none
        | some (st4, out2) =>
          some (st4, (gs.map fun g => DecOut.payload g.body) ++ out2) := by
      show (match OnData st c with
        | none => none
        | some (st1, out) =>
          match feedChunks st1 cs with
          | none => none
          | some (st5, out2) => some (st5, out ++ out2)) = _
      rw [hdata]
    rw [hstep, hfeed, hfs]
    simp

/-- Claim C2: for every valid frame stream and every way of splitting it
into successive chunks (at any byte boundaries, with chunks holding zero,
one or many frames and frames spanning chunks), feeding the chunks one at a
time through `OnData` delivers the same ordered sequence of envelopes to the
dispatcher as feeding the whole stream as a single chunk — the envelope is a
pure function of the delivered payload bytes, which are shown here to be
exactly the frame bodies, in order, in both runs. -/
theorem claim_C2 (fs : List Frame) (chunks : List Bytes)
    (hv : fs.all Frame.validb = true)
    (hchunks : chunks.flatten = framesBytes fs) :
    Option.map Prod.snd (feedChunks initDecSt chunks) =
      Option.map Prod.snd (feedChunks initDecSt [framesBytes fs]) ∧
    Option.map Prod.snd (feedChunks initDecSt chunks) =
      some (fs.map (fun f => DecOut.payload f.body)) := by
  have hrun : ∀ cs : List Bytes, cs.flatten = framesBytes fs →
      ∃ st2, feedChunks initDecSt cs =
        some (st2, fs.map (fun f => DecOut.payload f.body)) := by
    intro cs hcs
    apply feedChunks_frames cs initDecSt fs hv
    refine ⟨RemSpec.part [], rfl, by decide, ?_⟩
    show ([] : Bytes) ++ cs.flatten = framesBytes fs
    simpa using hcs
  rcases hrun chunks hchunks with ⟨st1, h1⟩
  rcases hrun [framesBytes fs] (by simp) with ⟨st2, h2⟩
  rw [h1, h2]
  exact ⟨rfl, rfl⟩

/-- A concrete valid frame: header block `Content-Length: 2`, body the two
bytes of an empty JSON object. -/
def frameW : Frame :=
  ⟨[67, 111, 110, 116, 101, 110, 116, 45, 76, 101, 110, 103, 116, 104, 58, 32, 50],
   [123, 125]⟩

/-- A chunking of the one-frame stream split in the middle of the header. -/
def chunksW : List Bytes :=
  [(framesBytes [frameW]).take 9, (framesBytes [frameW]).drop 9]

theorem claim_C2_witness :
    ([frameW].all Frame.validb = true ∧ chunksW.flatten = framesBytes [frameW]) ∧
    (Option.map Prod.snd (feedChunks initDecSt chunksW) =
       Option.map Prod.snd (feedChunks initDecSt [framesBytes [frameW]]) ∧
     Option.map Prod.snd (feedChunks initDecSt chunksW) =
       some ([frameW].map (fun f => DecOut.payload f.body))) :=
  ⟨⟨by decide, by decide⟩, claim_C2 [frameW] chunksW (by decide) (by decide)⟩

/-- One unfolding of the decode loop from a `READ_HEADER` state. -/
theorem decodeLoop_header_step (fuel : Nat) (buf : Bytes) (m : HMap) :
    decodeLoop (fuel + 1) ⟨DState.readingHeader, buf, m⟩ =
      match ReadHeaders ⟨DState.readingHeader, buf, m⟩ with
      | none => none
      | some st1 =>
        if st1.dstate = DState.readingBody then
          match ReadBody st1 with
          | none => none
          | some (st2, out) =>
            if st2.dstate = DState.readingHeader then
              match decodeLoop fuel st2 with
              | none => none
              | some (st3, out2) => some (st3, out ++ out2)
            else some (st2, out)
        else some (st1, []) := rfl

/-- Claim C9: when the decoder enters the body-reading state with a header
mapping lacking `Content-Length`, it emits the error-level log, discards the
entire unconsumed buffer — including any following well-formed frame already
received in `rest` — resets to the header-reading state, delivers no
envelope for the frame, and does not raise, so the session continues. -/
theorem claim_C9 (hd rest : Bytes) (m : HMap)
    (hwf : findSeq tSEP (hd ++ tSEP) = some hd.length)
    (hp : parseHeaderBlock hd [] = some m)
    (hcl : hlookup m CLkey = none) :
    OnData initDecSt (hd ++ (tSEP ++ rest)) =
      some (⟨DState.readingHeader, [], []⟩, [DecOut.errMissingCL m]) := by
  show decodeLoop (2 * (([] : Bytes) ++ (hd ++ (tSEP ++ rest))).length + 2)
    ⟨DState.readingHeader, ([] : Bytes) ++ (hd ++ (tSEP ++ rest)), []⟩ = _
  simp only [List.nil_append]
  rw [show 2 * (hd ++ (tSEP ++ rest)).length + 2 =
    (2 * (hd ++ (tSEP ++ rest)).length + 1) + 1 from rfl]
  rw [decodeLoop_header_step]
  rw [ReadHeaders_frame hwf hp]
  simp only [ReadBody, hcl]
  have hquiet : decodeLoop (2 * (hd ++ (tSEP ++ rest)).length + 1)
      ⟨DState.readingHeader, [], []⟩ =
      some (⟨DState.readingHeader, [], []⟩, []) := by
    rw [show 2 * (hd ++ (tSEP ++ rest)).length + 1 =
      (2 * (hd ++ (tSEP ++ rest)).length) + 1 from rfl]
    rw [decodeLoop_header_step]
    rw [@ReadHeaders_quiet ⟨DState.readingHeader, [], []⟩ (by decide)]
    rfl
  rw [hquiet]
  simp

theorem claim_C9_witness :
    (findSeq tSEP ([70, 111, 111, 58, 32, 49] ++ tSEP) = some 6 ∧
     parseHeaderBlock [70, 111, 111, 58, 32, 49] [] =
       some [([70, 111, 111], [32, 49])] ∧
     hlookup [([70, 111, 111], [32, 49])] CLkey = none) ∧
    OnData initDecSt ([70, 111, 111, 58, 32, 49] ++ (tSEP ++ framesBytes [frameW])) =
      some (⟨DState.readingHeader, [], []⟩,
            [DecOut.errMissingCL [([70, 111, 111], [32, 49])]]) :=
  ⟨⟨by decide, by decide, by decide⟩,
   claim_C9 [70, 111, 111, 58, 32, 49] (framesBytes [frameW])
     [([70, 111, 111], [32, 49])] (by decide) (by decide) (by decide)⟩

theorem afterLastLF_no_lf (l : Bytes) : (afterLastLF l).contains 10 = false := by
  unfold afterLastLF
  cases hc : (l.reverse.takeWhile (fun b => b != 10)).reverse.contains 10 with
  | false => rfl
  | true =>
    exfalso
    have hmem : (10 : Nat) ∈ (l.reverse.takeWhile (fun b => b != 10)).reverse :=
      List.elem_iff.mp hc
    rw [List.mem_reverse] at hmem
    have := List.mem_takeWhile_imp hmem
    simp at this

theorem repairLine_afterLastLF {l : Bytes} (h : l.contains 10 = true) :
    repairLine l = afterLastLF l := by
  unfold repairLine
  rw [h]
  rfl

theorem repairLine_of_no_lf {l : Bytes} (h : l.contains 10 = false) :
    repairLine l = l := by
  unfold repairLine
  rw [h]
  rfl

/-- In a list of non-colon bytes followed by a colon, the first colon is
found exactly at the boundary. -/
theorem findSeq_colon :
    ∀ (pre : Bytes), pre.all (fun b => b != 58) = true →
      ∀ val : Bytes, findSeq [58] (pre ++ (58 :: val)) = some pre.length := by
  intro pre
  induction pre with
  | nil =>
    intro _ val
    simp [findSeq, List.isPrefixOf]
  | cons x p ih =>
    intro h val
    rw [List.all_cons, Bool.and_eq_true] at h
    have hx : ¬ ((58 : Nat) == x) = true := by
      simp
      simp at h
      omega
    show findSeq [58] (x :: (p ++ (58 :: val))) = some (p.length + 1)
    simp only [findSeq]
    rw [if_neg (by simp [List.isPrefixOf]; intro hc; exact absurd (by simp [hc]) hx)]
    rw [ih h.2 val]
    rfl

theorem hlookup_hupdate (m : HMap) (k v : Bytes) :
    hlookup (hupdate m k v) k = some v := by
  induction m with
  | nil => simp [hupdate, hlookup]
  | cons kv rest ih =>
    rcases kv with ⟨k0, v0⟩
    by_cases hk : k0 = k
    · simp [hupdate, hlookup, hk]
    · simp [hupdate, hlookup, hk, ih]

/-- Claim C8 counterexample: the header block
`noise \n Garbage CRLF Content-Length: 2` has a line with a bare line feed
whose repaired remainder (`Garbage`) is non-blank and has no colon, so the
tuple unpack `key, value = ....split( ':', 1 )` raises and the parse of the
whole block fails (`none`), even though the block also holds a separate,
well-formed `Content-Length` line — which the claim says is still parsed
correctly. -/
theorem claim_C8_counterexample :
    parseHeaderBlock
      ([110, 111, 105, 115, 101, 10, 71, 97, 114, 98, 97, 103, 101] ++
        (tCRLF ++ (CLkey ++ [58, 32, 50]))) [] = none ∧
    (10 : Nat) ∈ [110, 111, 105, 115, 101, 10, 71, 97, 114, 98, 97, 103, 101] := by
  exact ⟨by decide, by decide⟩

/-- Claim C8, amended: a header line with a bare line feed keeps only the
text after the last line feed before being split on its first colon (so
noise before the line feed is discarded); a separate well-formed
`Content-Length` line in the same block is then parsed correctly provided
the retained text of the noisy line itself parses — i.e. it is blank or has
a colon (and does not itself define `Content-Length`).  If the retained
text is non-blank and colonless, the parse raises instead and the block is
lost. -/
theorem claim_C8 :
    (∀ (m : HMap) (l : Bytes), l.contains 10 = true →
      parseHeaderLine m l = parseHeaderLine m (afterLastLF l)) ∧
    (∀ (noisy : Bytes) (m1 : HMap) (val : Bytes),
      findSeq tCRLF noisy = none →
      parseHeaderLine [] noisy = some m1 →
      hlookup m1 CLkey = none →
      (CLkey ++ (58 :: val)).contains 10 = false →
      findSeq tCRLF (CLkey ++ (58 :: val)) = none →
      validUtf8 (CLkey ++ (58 :: val)) = true →
      parseHeaderBlock (noisy ++ (tCRLF ++ (CLkey ++ (58 :: val)))) [] =
        some (hupdate m1 CLkey val) ∧
      hlookup (hupdate m1 CLkey val) CLkey = some val) := by
  constructor
  · intro m l h
    unfold parseHeaderLine
    rw [repairLine_afterLastLF h, repairLine_of_no_lf (afterLastLF_no_lf l)]
  · intro noisy m1 val h1 h2 h3 h4 h5 h6
    refine ⟨?_, hlookup_hupdate m1 CLkey val⟩
    unfold parseHeaderBlock
    rw [splitCRLF_append _ h1, splitCRLF_of_none h5]
    have hnws : hasNonWS (CLkey ++ (58 :: val)) = true := by
      show hasNonWS (67 :: _) = true
      simp [hasNonWS, isPyWS]
    have hdrop2 : (CLkey ++ (58 :: val)).drop (CLkey.length + 1) = val := by
      rw [show CLkey ++ (58 :: val) = (CLkey ++ [58]) ++ val from by simp]
      exact List.drop_left' (by simp)
    have htake2 : (CLkey ++ (58 :: val)).take CLkey.length = CLkey := by
      rw [List.take_append_of_le_length (Nat.le_refl _), List.take_length]
    have hcl : parseHeaderLine m1 (CLkey ++ (58 :: val)) =
        some (hupdate m1 CLkey val) := by
      unfold parseHeaderLine
      rw [repairLine_of_no_lf h4]
      simp only [hnws, h6, if_true, findSeq_colon CLkey (by decide) val,
        htake2, hdrop2]
    show (do
      let m2 ← parseHeaderLine [] noisy
      let m3 ← parseHeaderLine m2 (CLkey ++ (58 :: val))
      pure m3) = some (hupdate m1 CLkey val)
    rw [h2]
    show parseHeaderLine m1 (CLkey ++ (58 :: val)) >>= (fun m3 => pure m3) =
      some (hupdate m1 CLkey val)
    rw [hcl]
    rfl

theorem claim_C8_witness :
    (([97, 10, 98, 58, 99] : Bytes).contains 10 = true ∧
     parseHeaderLine [] [97, 10, 98, 58, 99] =
       parseHeaderLine [] (afterLastLF [97, 10, 98, 58, 99])) ∧
    (parseHeaderBlock ([120, 10, 89, 58, 49] ++ (tCRLF ++ (CLkey ++ (58 :: [32, 50])))) [] =
       some (hupdate [([89], [49])] CLkey [32, 50]) ∧
     hlookup (hupdate [([89], [49])] CLkey [32, 50]) CLkey = some [32, 50]) :=
  ⟨⟨by decide, claim_C8.1 [] [97, 10, 98, 58, 99] (by decide)⟩,
   claim_C8.2 [120, 10, 89, 58, 49] [([89], [49])] [32, 50]
     (by decide) (by decide) (by decide) (by decide) (by decide) (by decide)⟩

/-- JSON-like values: the Python objects produced by `json.loads` and
handed to `json.dumps`.  Objects and arrays are encoded first-order as
cons-chains (`objCons k v rest` is the dict whose first insertion-ordered
entry is `k ↦ v`), which models Python's ordered dicts exactly while
keeping equality decidable; protocol numbers are modelled as integers. -/
inductive J
  | null
  | bool (b : Bool)
  | num (n : Int)
  | str (s : String)
  | arrNil
  | arrCons (hd : J) (tl : J)
  | objNil
  | objCons (k : String) (v : J) (tl : J)
deriving DecidableEq, Repr

/-- Build an object value from an insertion-ordered field list. -/
def jobj : List (String × J) → J
  | [] => J.objNil
  | (k, v) :: rest => J.objCons k v (jobj rest)

/-- Is the value a Python dict? -/
def isObj : J → Bool
  | J.objNil => true
  | J.objCons _ _ _ => true
  | _ => false

/-- `message[ key ]` read access; `none` models the exception raised on a
missing key or a non-dict value. -/
def jLook : J → String → Option J
  | J.objCons k0 v0 rest, k => if k0 = k then some v0 else jLook rest k
  | _, _ => none

/-- Python dict assignment on an object chain: replace in place or append. -/
def updateField : J → String → J → J
  | J.objCons k0 v0 rest, k, v =>
    if k0 = k then J.objCons k0 v rest else J.objCons k0 v0 (updateField rest k v)
  | _, k, v => J.objCons k v J.objNil

/-- `msg[ key ] = value`; `none` models the `TypeError` on a non-dict. -/
def jSet (m : J) (k : String) (v : J) : Option J :=
  if isObj m then some (updateField m k v) else none

/-- Python truthiness of a JSON value. -/
def jTruthy : J → Bool
  | J.null => false
  | J.bool b => b
  | J.num n => n != 0
  | J.str s => s.length != 0
  | J.arrNil => false
  | J.arrCons _ _ => true
  | J.objNil => false
  | J.objCons _ _ _ => true

/-- A `PendingRequest`: the sent envelope, the truthiness of the success and
failure handlers (the handlers themselves are opaque host closures whose
invocations are recorded as events), and the timer token `expiry_id`
(`none` after `_KillTimer`). -/
structure Pending where
  msg : J
  hasHandler : Bool
  hasFailure : Bool
  expiry : Option Nat
deriving DecidableEq, Repr

/-- One member of the handler chain: which capabilities `dir( h )` exposes
and the truthiness of each capability's return value. -/
structure Handler where
  hasOnFailure : Bool
  onFailureRet : J → J → J → Bool
  eventCap : String → Bool
  onEventRet : String → J → Bool
  reqCap : String → Bool
  onReqRet : String → J → Bool

/-- The mutable state of one `DebugAdapterConnection`: `self._Write`
truthiness, `self._handlers`, `self._next_message_id`,
`self._outstanding_requests` in dict insertion order, a counter modelling
the host timer facility's fresh identifiers, the two timeout defaults and
the decoder state. -/
structure Sess where
  writePresent : Bool
  handlers : Option (List Handler)
  nextId : Nat
  outstanding : List (Nat × Pending)
  timerCtr : Nat
  asyncTimeout : Nat
  syncTimeout : Nat
  dec : DecSt

/-- Observable effects on the host: timers, transport writes, handler and
notification invocations, and the log statements the claims mention.
Handler invocations are tagged with the pending entry (or chain index) they
belong to. -/
inductive Ev
  | timerStart (tid timeoutMs : Nat)
  | timerStop (tid : Nat)
  | seqAssigned (n : Nat)
  | wrote (m : J)
  | logAbort (reason : String) (m : J)
  | abortFail (p : Pending) (reason : String)
  | abortUser (cmd : J) (reason : String)
  | dupMsg (rs : J)
  | logDup (m : J)
  | successCall (p : Pending) (m : J)
  | failureCall (p : Pending) (reason : J) (m : J)
  | logFailHandled (reason : J)
  | logFailUnhandled (reason : J)
  | onFailureCall (idx : Nat) (reason : J)
  | logRenderFail (err : J)
  | eventCall (idx : Nat) (name : String) (m : J)
  | requestCall (idx : Nat) (name : String) (m : J)
deriving DecidableEq, Repr

/-- `_KillTimer`: invalidate `expiry_id` and stop the timer if still set. -/
def KillTimer (p : Pending) : Pending × List Ev :=
  match p.expiry with
  | none => (p, [])
  | some t => (⟨p.msg, p.hasHandler, p.hasFailure, none⟩, [Ev.timerStop t])

/-- `_AbortRequest`: log, kill the timer, then either invoke the failure
handler with `( reason, {} )` or show the fallback user message naming
`request.msg[ 'command' ]` — the subscript raises when that key is missing
(flag `false`). -/
def AbortRequest (p : Pending) (reason : String) : Pending × List Ev × Bool :=
  let ev0 := Ev.logAbort reason p.msg
  let pk := KillTimer p
  if p.hasFailure then
    (pk.1, ev0 :: pk.2 ++ [Ev.abortFail pk.1 reason], true)
  else
    match jLook p.msg "command" with
    | some c => (pk.1, ev0 :: pk.2 ++ [Ev.abortUser c reason], true)
    | none => (pk.1, ev0 :: pk.2, false)

/-- Dict assignment `self._outstanding_requests[ k ] = p`. -/
def lset : List (Nat × Pending) → Nat → Pending → List (Nat × Pending)
  | [], k, p => [(k, p)]
  | (k0, p0) :: rest, k, p =>
    if k0 = k then (k0, p) :: rest else (k0, p0) :: lset rest k p

/-- Dict lookup on the ledger. -/
def llookup : List (Nat × Pending) → Nat → Option Pending
  | [], _ => none
  | (k0, p0) :: rest, k => if k0 = k then some p0 else llookup rest k

/-- `dict.pop( k )`: the removed entry and the ledger without it. -/
def lpopInt : List (Nat × Pending) → Int → Option (Pending × List (Nat × Pending))
  | [], _ => none
  | (k0, p0) :: rest, k =>
    if (k0 : Int) = k then some (p0, rest)
    else (lpopInt rest k).map (fun pr => (pr.1, (k0, p0) :: pr.2))

/-- Which JSON values compare equal to an integer dict key under Python
equality (`True == 1`, `False == 0`). -/
def keyOfJ : J → Option Int
  | J.num n => some n
  | J.bool b => some (if b then 1 else 0)
  | _ => none

/-- Python lists and dicts are unhashable: `dict.pop` raises `TypeError`
instead of `KeyError` on them. -/
def unhashable : J → Bool
  | J.arrNil => true
  | J.arrCons _ _ => true
  | J.objNil => true
  | J.objCons _ _ _ => true
  | _ => false

/-- `self._outstanding_requests.pop( message[ 'request_seq' ] )` for a
hashable key: strings and `None` never equal an integer key (KeyError),
numbers and booleans use Python numeric equality. -/
def lpopByJ (l : List (Nat × Pending)) (rs : J) :
    Option (Pending × List (Nat × Pending)) :=
  match keyOfJ rs with
  | some n => lpopInt l n
  | none => none

/-- `_SendMessage` at the session layer: falsy when `self._Write` is gone,
otherwise hand the message to the transport and return the write's own
result (the byte-level framing is modelled by `SendFrame` below). -/
def SendMessage (s : Sess) (msg : J) (writeOk : Bool) : Bool × List Ev :=
  if s.writePresent then (writeOk, [Ev.wrote msg]) else (false, [])

/-- `DoRequest`: assign the next sequence number, stamp `seq`/`type`, start
the timeout timer, register the `PendingRequest`, send, and on a failed
send abort the just-created entry — which stays in the ledger, only its
timer token being cleared through the shared request object. -/
def DoRequest (s : Sess) (hasH hasF : Bool) (msg : J) (timeout : Option Nat)
    (writeOk : Bool) : Sess × List Ev × Bool :=
  let tmo := match timeout with | none => s.asyncTimeout | some t => t
  let thisId := s.nextId
  let s1 := {s with nextId := s.nextId + 1}
  match jSet msg "seq" (J.num thisId) with
  | none => (s1, [Ev.seqAssigned thisId], false)
  | some m1 =>
    match jSet m1 "type" (J.str "request") with
    | none => (s1, [Ev.seqAssigned thisId], false)
    | some m2 =>
      let expiry := s1.timerCtr
      let s2 := {s1 with timerCtr := s1.timerCtr + 1}
      let p : Pending := ⟨m2, hasH, hasF, some expiry⟩
      let s3 := {s2 with outstanding := lset s2.outstanding thisId p}
      let sm := SendMessage s3 m2 writeOk
      let evs := Ev.seqAssigned thisId :: Ev.timerStart expiry tmo :: sm.2
      if sm.1 then (s3, evs, true)
      else
        let ab := AbortRequest p "Unable to send message"
        ({s3 with outstanding := lset s3.outstanding thisId ab.1},
         evs ++ ab.2.1, ab.2.2)

/-- `DoResponse`: draw a fresh sequence number from the same counter, build
the response envelope (echoing `seq`/`command` of the request — subscripts
that raise when missing), set `success`/`message` from the error argument,
and fire-and-forget send it with no ledger entry. -/
def DoResponse (s : Sess) (request : J) (error : Option String) (response : J)
    (writeOk : Bool) : Sess × List Ev × Bool :=
  let thisId := s.nextId
  let s1 := {s with nextId := s.nextId + 1}
  match jLook request "seq" with
  | none => (s1, [Ev.seqAssigned thisId], false)
  | some rs =>
    match jLook request "command" with
    | none => (s1, [Ev.seqAssigned thisId], false)
    | some cmd =>
      let base := [("seq", J.num (thisId : Int)), ("type", J.str "response"),
                   ("request_seq", rs), ("command", cmd), ("body", response)]
      let msg := match error with
        | some e =>
          if e.length != 0 then
            jobj (base ++ [("success", J.bool false), ("message", J.str e)])
          else jobj (base ++ [("success", J.bool true)])
        | none => jobj (base ++ [("success", J.bool true)])
      let sm := SendMessage s1 msg writeOk
      (s1, Ev.seqAssigned thisId :: sm.2, true)

/-- The linear scan of `OnRequestTimeout` correlating a fired timer to the
first ledger entry holding its token. -/
def findByTimer : List (Nat × Pending) → Nat → Option Nat
  | [], _ => none
  | (k, p) :: rest, tid =>
    if p.expiry = some tid then some k else findByTimer rest tid

/-- `OnRequestTimeout`: a no-op when no entry carries the fired timer;
otherwise pop that entry and abort it with reason `Timeout`. -/
def OnRequestTimeout (s : Sess) (tid : Nat) : Sess × List Ev × Bool :=
  match findByTimer s.outstanding tid with
  | none => (s, [], true)
  | some k =>
    match lpopInt s.outstanding (k : Int) with
    | none => (s, [], true)
    | some (p, rest) =>
      let ab := AbortRequest p "Timeout"
      ({s with outstanding := rest}, ab.2.1, ab.2.2)

/-- The `while self._outstanding_requests: popitem()` drain of `Reset`,
written over the reversed ledger (`popitem` pops the most recently inserted
entry first); on a raise inside an abort the remaining entries stay. -/
def drainRev : List (Nat × Pending) → List Ev × List (Nat × Pending) × Bool
  | [] => ([], [], true)
  | (_, p) :: rest =>
    let ab := AbortRequest p "Closing down"
    if ab.2.2 then
      let d := drainRev rest
      (ab.2.1 ++ d.1, d.2.1, d.2.2)
    else (ab.2.1, rest, false)

/-- `Reset`: disconnect the write function and the handler chain, then
abort every still-outstanding entry with reason `Closing down`. -/
def Reset (s : Sess) : Sess × List Ev × Bool :=
  let d := drainRev s.outstanding.reverse
  ({ s with
      writePresent := false,
      handlers := none,
      outstanding := d.2.1.reverse }, d.1, d.2.2)

/-- Truthiness of `self._handlers`: `None` and the empty list are falsy. -/
def handlersTruthy (s : Sess) : Bool :=
  match s.handlers with
  | some (_ :: _) => true
  | _ => false

/-- The walk of the handler chain for `OnFailure`, stopping at the first
truthy return; `idx` is the position in the chain for event tagging. -/
def walkFailure : Nat → List Handler → J → J → J → List Ev
  | _, [], _, _, _ => []
  | i, h :: rest, r, om, rm =>
    if h.hasOnFailure then
      if h.onFailureRet r om rm then [Ev.onFailureCall i r]
      else Ev.onFailureCall i r :: walkFailure (i + 1) rest r om rm
    else walkFailure (i + 1) rest r om rm

/-- The walk of the handler chain for `OnEvent_<name>`. -/
def walkEvent : Nat → List Handler → String → J → List Ev
  | _, [], _, _ => []
  | i, h :: rest, name, m =>
    if h.eventCap name then
      if h.onEventRet name m then [Ev.eventCall i name m]
      else Ev.eventCall i name m :: walkEvent (i + 1) rest name m
    else walkEvent (i + 1) rest name m

/-- The walk of the handler chain for `OnRequest_<command>`. -/
def walkRequest : Nat → List Handler → String → J → List Ev
  | _, [], _, _ => []
  | i, h :: rest, name, m =>
    if h.reqCap name then
      if h.onReqRet name m then [Ev.requestCall i name m]
      else Ev.requestCall i name m :: walkRequest (i + 1) rest name m
    else walkRequest (i + 1) rest name m

/-- The failure-reason derivation of the response branch: prefer
`message.get( 'message' )`, and when `body.error` is truthy try to render
`error[ 'format' ]` with `error.get( 'variables', {} )`.  The `str.format`
host call is the opaque `render` parameter; every exception inside the
`try` is caught, logged and falls back to the raw reason.  The outer `none`
models the uncaught raise of `.get` on a non-dict `body`. -/
def deriveReason (render : String → J → Option String) (m : J) :
    Option (J × List Ev) :=
  let reason := (jLook m "message").getD J.null
  match (jLook m "body").getD J.objNil with
  | J.objNil => some (reason, [])
  | J.objCons k v rest =>
    let err := (jLook (J.objCons k v rest) "error").getD J.objNil
    if jTruthy err then
      match (match jLook err "format" with
             | some (J.str f) =>
               render f ((jLook err "variables").getD J.objNil)
             | _ => none) with
      | some rendered => some (J.str rendered, [])
      | none => some (reason, [Ev.logRenderFail err])
    else some (reason, [])
  | _ => none

/-- The success/failure path of a popped and timer-killed entry: `p2` is
the request object after `_KillTimer` and `evk` the timer events. -/
def resolveAfterKill (render : String → J → Option String) (hs : List Handler)
    (p2 : Pending) (evk : List Ev) (m : J) : List Ev × Bool :=
  match jLook m "success" with
  | none => (evk, false)
  | some succ =>
    if jTruthy succ then
      if p2.hasHandler then (evk ++ [Ev.successCall p2 m], true)
      else (evk, true)
    else
      match deriveReason render m with
      | none => (evk, false)
      | some (reason, evr) =>
        if p2.hasFailure then
          (evk ++ evr ++ [Ev.logFailHandled reason, Ev.failureCall p2 reason m],
           true)
        else
          (evk ++ evr ++ Ev.logFailUnhandled reason ::
            walkFailure 0 hs reason p2.msg m, true)

/-- Resolution of a popped ledger entry against its response: kill the
timer, then run the success or failure path.  Pure in the session state;
the flag is `false` when an uncaught exception escapes. -/
def resolveEntry (render : String → J → Option String) (hs : List Handler)
    (p : Pending) (m : J) : List Ev × Bool :=
  resolveAfterKill render hs (KillTimer p).1 (KillTimer p).2 m

/-- The response branch of `_OnMessageReceived`: pop the matching entry; a
missing (or duplicate) match is surfaced as the user-visible protocol
notice plus the log entry and nothing else. -/
def respBranch (render : String → J → Option String) (s : Sess) (m : J) :
    Sess × List Ev × Bool :=
  match jLook m "request_seq" with
  | none => (s, [], false)
  | some rs =>
    if unhashable rs then (s, [], false)
    else
      match lpopByJ s.outstanding rs with
      | none => (s, [Ev.dupMsg rs, Ev.logDup m], true)
      | some (p, rest) =>
        let re := resolveEntry render (s.handlers.getD []) p m
        ({ s with outstanding := rest }, re.1, re.2)

/-- The event branch: `OnEvent_` + a non-string event name raises. -/
def eventBranch (s : Sess) (m : J) : Sess × List Ev × Bool :=
  match jLook m "event" with
  | some (J.str name) => (s, walkEvent 0 (s.handlers.getD []) name m, true)
  | some _ => (s, [], false)
  | none => (s, [], false)

/-- The reverse-request branch. -/
def reqBranch (s : Sess) (m : J) : Sess × List Ev × Bool :=
  match jLook m "command" with
  | some (J.str name) => (s, walkRequest 0 (s.handlers.getD []) name m, true)
  | some _ => (s, [], false)
  | none => (s, [], false)

/-- `_OnMessageReceived`: drop everything when the handler chain is falsy
(`None` after teardown, or constructed empty); otherwise dispatch on
`message[ 'type' ]`, with unknown types falling through as a no-op. -/
def OnMessageReceived (render : String → J → Option String) (s : Sess) (m : J) :
    Sess × List Ev × Bool :=
  if handlersTruthy s then
    match jLook m "type" with
    | none => (s, [], false)
    | some t =>
      if t = J.str "response" then respBranch render s m
      else if t = J.str "event" then eventBranch s m
      else if t = J.str "request" then reqBranch s m
      else (s, [], true)
  else (s, [], true)

/-- `__init__`: falsy timeout arguments (absent or 0) fall back to the
defaults 5000 (sync) and 15000 (async); the ledger starts empty and the
sequence counter at 1. -/
def initSess (handlers : Option (List Handler)) (writePresent : Bool)
    (syncTimeout asyncTimeout : Option Nat) : Sess :=
  ⟨writePresent, handlers, 1, [], 0,
   (match asyncTimeout with | none => 15000 | some 0 => 15000 | some t => t),
   (match syncTimeout with | none => 5000 | some 0 => 5000 | some t => t),
   initDecSt⟩

/-- Claim C10: when the handler chain supplied at construction is an empty
list (not merely torn down), `if not self._handlers` is taken — the empty
list is falsy exactly like `None` — so every fully decoded inbound envelope,
including a response whose `request_seq` matches an outstanding ledger
entry, is dropped without any dispatch: the matching entry is not removed,
its timer is not cancelled, no event is emitted, nothing raises, and the
session state is unchanged. -/
theorem claim_C10 (render : String → J → Option String) (s : Sess) (m : J)
    (h : s.handlers = some []) :
    OnMessageReceived render s m = (s, [], true) := by
  unfold OnMessageReceived handlersTruthy
  rw [h]
  rfl

/-- A pending entry matching an outstanding response, for the witnesses. -/
def pendW : Pending :=
  ⟨jobj [("command", J.str "launch"), ("seq", J.num 1), ("type", J.str "request")],
   true, true, some 0⟩

/-- A matching successful response envelope. -/
def msgW : J :=
  jobj [("type", J.str "response"), ("request_seq", J.num 1),
        ("success", J.bool true)]

/-- A session whose handler chain is the empty list and whose ledger holds
a matching entry. -/
def sessW10 : Sess := ⟨true, some [], 5, [(1, pendW)], 3, 15000, 5000, initDecSt⟩

theorem claim_C10_witness :
    sessW10.handlers = some [] ∧
    OnMessageReceived (fun _ _ => none) sessW10 msgW = (sessW10, [], true) :=
  ⟨rfl, claim_C10 (fun _ _ => none) sessW10 msgW rfl⟩

theorem findByTimer_none {l : List (Nat × Pending)} {tid : Nat}
    (h : ∀ kp ∈ l, kp.2.expiry ≠ some tid) : findByTimer l tid = none := by
  induction l with
  | nil => rfl
  | cons kp rest ih =>
    unfold findByTimer
    rw [if_neg (h kp (by simp))]
    exact ih (fun x hx => h x (by simp [hx]))

/-- Claim C6: firing the timeout callback with a timer identifier that
matches no ledger entry (for instance one already resolved by a response or
removed by teardown) is a no-op: no handler is invoked, no event is
emitted, nothing raises, and the whole session state — ledger, sequence
counter, decoder state — is unchanged. -/
theorem claim_C6 (s : Sess) (tid : Nat)
    (h : ∀ kp ∈ s.outstanding, kp.2.expiry ≠ some tid) :
    OnRequestTimeout s tid = (s, [], true) := by
  unfold OnRequestTimeout
  rw [findByTimer_none h]

/-- A session holding one entry whose timer token is 0. -/
def sessW6 : Sess := ⟨true, some [], 5, [(1, pendW)], 3, 15000, 5000, initDecSt⟩

theorem claim_C6_witness :
    (∀ kp ∈ sessW6.outstanding, kp.2.expiry ≠ some 7) ∧
    OnRequestTimeout sessW6 7 = (sessW6, [], true) :=
  ⟨by decide, claim_C6 sessW6 7 (by decide)⟩

/-- The request sent at the failing input of claim C1. -/
def msgC1 : J := jobj [("command", J.str "initialize")]

/-- A session whose transport write function is absent. -/
def sessC1 : Sess := initSess (some []) false none none

/-- Claim C1, behaviour of the code at the failing input: when the
transport write fails immediately, `DoRequest` runs `_AbortRequest` on the
just-created entry — the timer is cancelled (`timer_stop` for token 0) and
the failure path runs with reason `Unable to send message` — but the entry
is NOT removed from `_outstanding_requests`: it is still stored under
sequence number 1 (with its timer token cleared through the shared request
object), contradicting the claim that the entry is removed from the ledger
in the same step. -/
theorem claim_C1_code_behavior :
    llookup (DoRequest sessC1 true true msgC1 none false).1.outstanding 1 =
      some ⟨jobj [("command", J.str "initialize"), ("seq", J.num 1),
                  ("type", J.str "request")], true, true, none⟩ ∧
    Ev.abortFail ⟨jobj [("command", J.str "initialize"), ("seq", J.num 1),
                  ("type", J.str "request")], true, true, none⟩
        "Unable to send message" ∈ (DoRequest sessC1 true true msgC1 none false).2.1 ∧
    Ev.timerStop 0 ∈ (DoRequest sessC1 true true msgC1 none false).2.1 := by
  refine ⟨?_, ?_, ?_⟩ <;> decide

/-- The keys of the ledger, in insertion order. -/
def ledgerKeys (l : List (Nat × Pending)) : List Nat := l.map Prod.fst

theorem lpopInt_none_of {l : List (Nat × Pending)} {k : Int}
    (h : ∀ k0 ∈ ledgerKeys l, (k0 : Int) ≠ k) : lpopInt l k = none := by
  induction l with
  | nil => rfl
  | cons kp rest ih =>
    unfold lpopInt
    rcases kp with ⟨k0, p0⟩
    rw [if_neg (h k0 (by simp [ledgerKeys]))]
    rw [ih (fun x hx => h x (by simp [ledgerKeys] at hx ⊢; exact Or.inr hx))]
    rfl

theorem lpopInt_again {l : List (Nat × Pending)} {k : Int} {p : Pending}
    {rest : List (Nat × Pending)} (hnd : (ledgerKeys l).Nodup)
    (h : lpopInt l k = some (p, rest)) : lpopInt rest k = none := by
  induction l generalizing rest with
  | nil => exact absurd h (by simp [lpopInt])
  | cons kp tl ih =>
    rcases kp with ⟨k0, p0⟩
    rw [show ledgerKeys ((k0, p0) :: tl) = k0 :: ledgerKeys tl from rfl,
      List.nodup_cons] at hnd
    unfold lpopInt at h
    by_cases hk : (k0 : Int) = k
    · rw [if_pos hk] at h
      simp at h
      rcases h with ⟨_, hrest⟩
      subst hrest
      apply lpopInt_none_of
      intro x hx hcast
      have hx0 : x = k0 := by
        rw [← hk] at hcast
        exact_mod_cast hcast
      subst hx0
      exact hnd.1 hx
    · rw [if_neg hk] at h
      cases htl : lpopInt tl k with
      | none => rw [htl] at h; exact absurd h (by simp)
      | some pr =>
        rcases pr with ⟨q, r⟩
        rw [htl] at h
        simp at h
        rcases h with ⟨hp, hrest⟩
        subst hp
        subst hrest
        unfold lpopInt
        rw [if_neg hk]
        rw [ih hnd.2 htl]
        rfl

theorem resolveAfterKill_events (render : String → J → Option String)
    (hs : List Handler) (p2 : Pending) (evk : List Ev) (m : J) :
    ∃ tail, (resolveAfterKill render hs p2 evk m).1 = evk ++ tail := by
  unfold resolveAfterKill
  split
  · exact ⟨[], by simp⟩
  · split
    · split
      · exact ⟨[Ev.successCall p2 m], rfl⟩
      · exact ⟨[], by simp⟩
    · split
      · exact ⟨[], by simp⟩
      · split
        · exact ⟨_, List.append_assoc _ _ _⟩
        · exact ⟨_, List.append_assoc _ _ _⟩

theorem resolveEntry_timer (render : String → J → Option String)
    (hs : List Handler) (p : Pending) (m : J) :
    ∃ tail, (resolveEntry render hs p m).1 = (KillTimer p).2 ++ tail :=
  resolveAfterKill_events render hs (KillTimer p).1 (KillTimer p).2 m

/-- Claim C4: a response whose `request_seq` matches an outstanding ledger
entry removes exactly that entry and resolves it (the entry's timer-stop
events come first); a subsequent response carrying the same `request_seq` —
or any response matching no outstanding entry — is surfaced as exactly the
visible duplicate-response notification plus its log entry, invokes no
success or failure handler, leaves the session state unchanged, and does
not raise or terminate the session. -/
theorem claim_C4 (render : String → J → Option String) (s : Sess) (m : J)
    (k : Nat) (p : Pending) (rest : List (Nat × Pending))
    (hh : handlersTruthy s = true)
    (ht : jLook m "type" = some (J.str "response"))
    (hrs : jLook m "request_seq" = some (J.num (k : Int)))
    (hpop : lpopByJ s.outstanding (J.num (k : Int)) = some (p, rest))
    (hnd : (ledgerKeys s.outstanding).Nodup) :
    (OnMessageReceived render s m).1 = { s with outstanding := rest } ∧
    (∃ tail, (OnMessageReceived render s m).2.1 = (KillTimer p).2 ++ tail) ∧
    OnMessageReceived render { s with outstanding := rest } m =
      ({ s with outstanding := rest },
       [Ev.dupMsg (J.num (k : Int)), Ev.logDup m], true) := by
  have hfirst : OnMessageReceived render s m =
      ({ s with outstanding := rest },
       (resolveEntry render (s.handlers.getD []) p m).1,
       (resolveEntry render (s.handlers.getD []) p m).2) := by
    simp [OnMessageReceived, hh, ht, respBranch, hrs, hpop, unhashable]
  refine ⟨by rw [hfirst], by rw [hfirst]; exact resolveEntry_timer _ _ _ _, ?_⟩
  have hh2 : handlersTruthy { s with outstanding := rest } = true := hh
  have hpop2 : lpopByJ rest (J.num (k : Int)) = none := by
    unfold lpopByJ at hpop ⊢
    simp only [keyOfJ] at hpop ⊢
    exact lpopInt_again hnd hpop
  simp [OnMessageReceived, hh2, ht, respBranch, hrs, hpop2, unhashable]

/-- A session with real handlers and the matching entry of `pendW`. -/
def handlerW : Handler :=
  ⟨true, fun _ _ _ => true, fun _ => true, fun _ _ => true,
   fun _ => true, fun _ _ => true⟩

def sessW4 : Sess := ⟨true, some [handlerW], 5, [(1, pendW)], 3, 15000, 5000, initDecSt⟩

theorem claim_C4_witness :
    (handlersTruthy sessW4 = true ∧
     jLook msgW "type" = some (J.str "response") ∧
     jLook msgW "request_seq" = some (J.num (1 : Nat)) ∧
     lpopByJ sessW4.outstanding (J.num (1 : Nat)) = some (pendW, []) ∧
     (ledgerKeys sessW4.outstanding).Nodup) ∧
    ((OnMessageReceived (fun _ _ => none) sessW4 msgW).1 =
       { sessW4 with outstanding := [] } ∧
     (∃ tail, (OnMessageReceived (fun _ _ => none) sessW4 msgW).2.1 =
       (KillTimer pendW).2 ++ tail) ∧
     OnMessageReceived (fun _ _ => none) { sessW4 with outstanding := [] } msgW =
       ({ sessW4 with outstanding := [] },
        [Ev.dupMsg (J.num (1 : Nat)), Ev.logDup msgW], true)) :=
  ⟨⟨rfl, by decide, by decide, by decide, by decide⟩,
   claim_C4 (fun _ _ => none) sessW4 msgW 1 pendW []
     rfl (by decide) (by decide) (by decide) (by decide)⟩

/-- The one user-observable failure-path invocation of `_AbortRequest`:
either the failure handler call or the fallback user message. -/
def isAbortEv : Ev → Bool
  | Ev.abortFail _ _ => true
  | Ev.abortUser _ _ => true
  | _ => false

theorem AbortRequest_ok {p : Pending} {reason : String}
    (h : p.hasFailure = true ∨ jLook p.msg "command" ≠ none) :
    (AbortRequest p reason).2.2 = true := by
  simp only [AbortRequest]
  rcases h with hf | hc
  · rw [if_pos hf]
  · by_cases hf : p.hasFailure = true
    · rw [if_pos hf]
    · rw [if_neg hf]
      cases hcl : jLook p.msg "command" with
      | none => exact absurd hcl hc
      | some c => rfl

theorem AbortRequest_countP {p : Pending} {reason : String}
    (h : (AbortRequest p reason).2.2 = true) :
    List.countP isAbortEv (AbortRequest p reason).2.1 = 1 := by
  simp only [AbortRequest] at h ⊢
  by_cases hf : p.hasFailure = true
  · rw [if_pos hf] at h ⊢
    cases hexp : p.expiry <;> simp [KillTimer, hexp, isAbortEv]
  · rw [if_neg hf] at h ⊢
    cases hcl : jLook p.msg "command" with
    | none => rw [hcl] at h; exact absurd h (by simp)
    | some c =>
      rw [hcl] at h
      cases hexp : p.expiry <;> simp [KillTimer, hexp, isAbortEv]

theorem drainRev_ok :
    ∀ l : List (Nat × Pending),
      (∀ kp ∈ l, (AbortRequest kp.2 "Closing down").2.2 = true) →
      drainRev l =
        (l.flatMap (fun kp => (AbortRequest kp.2 "Closing down").2.1), [], true) := by
  intro l
  induction l with
  | nil => intro _; rfl
  | cons kp rest ih =>
    intro h
    rcases kp with ⟨k, p⟩
    simp only [drainRev]
    rw [if_pos (h (k, p) (by simp))]
    rw [ih (fun x hx => h x (by simp [hx]))]
    simp

theorem countP_flatMap_aborts :
    ∀ l : List (Nat × Pending),
      (∀ kp ∈ l, (AbortRequest kp.2 "Closing down").2.2 = true) →
      List.countP isAbortEv
        (l.flatMap (fun kp => (AbortRequest kp.2 "Closing down").2.1)) = l.length := by
  intro l
  induction l with
  | nil => intro _; rfl
  | cons kp rest ih =>
    intro h
    simp only [List.flatMap_cons, List.countP_append, List.length_cons]
    rw [AbortRequest_countP (h kp (by simp)), ih (fun x hx => h x (by simp [hx]))]
    omega

/-- Claim C5: `Reset` first disconnects the write function and the handler
chain, then runs the failure path of every one of the K outstanding entries
exactly once with reason `Closing down` (cancelling each entry's timer as
part of its abort), and on completion the ledger is empty.  The event trace
is exactly the concatenation of one `_AbortRequest` per entry in `popitem`
(most-recent-first) order, and it holds exactly K failure-path
invocations.  The hypothesis — each entry can run its abort to completion,
i.e. it has a failure handler or its envelope names a command — matches
every entry `DoRequest` can create. -/
theorem claim_C5 (s : Sess)
    (h : ∀ kp ∈ s.outstanding,
      kp.2.hasFailure = true ∨ jLook kp.2.msg "command" ≠ none) :
    (Reset s).1.writePresent = false ∧
    (Reset s).1.handlers = none ∧
    (Reset s).1.outstanding = [] ∧
    (Reset s).2.2 = true ∧
    (Reset s).2.1 = s.outstanding.reverse.flatMap
      (fun kp => (AbortRequest kp.2 "Closing down").2.1) ∧
    List.countP isAbortEv (Reset s).2.1 = s.outstanding.length := by
  have hok : ∀ kp ∈ s.outstanding.reverse,
      (AbortRequest kp.2 "Closing down").2.2 = true := by
    intro kp hkp
    exact AbortRequest_ok (h kp (List.mem_reverse.mp hkp))
  have hd := drainRev_ok s.outstanding.reverse hok
  refine ⟨?_, ?_, ?_, ?_, ?_, ?_⟩
  · simp [Reset, hd]
  · simp [Reset, hd]
  · simp [Reset, hd]
  · simp [Reset, hd]
  · simp [Reset, hd]
  · rw [show (Reset s).2.1 = s.outstanding.reverse.flatMap
      (fun kp => (AbortRequest kp.2 "Closing down").2.1) from by simp [Reset, hd]]
    rw [countP_flatMap_aborts s.outstanding.reverse hok]
    simp

/-- A session with two outstanding entries for the teardown witness. -/
def sessW5 : Sess :=
  ⟨true, some [], 7,
   [(1, pendW), (2, ⟨jobj [("command", J.str "next"), ("seq", J.num 2),
     ("type", J.str "request")], true, false, some 4⟩)],
   5, 15000, 5000, initDecSt⟩

theorem claim_C5_witness :
    (∀ kp ∈ sessW5.outstanding,
      kp.2.hasFailure = true ∨ jLook kp.2.msg "command" ≠ none) ∧
    ((Reset sessW5).1.writePresent = false ∧
     (Reset sessW5).1.handlers = none ∧
     (Reset sessW5).1.outstanding = [] ∧
     (Reset sessW5).2.2 = true ∧
     (Reset sessW5).2.1 = sessW5.outstanding.reverse.flatMap
       (fun kp => (AbortRequest kp.2 "Closing down").2.1) ∧
     List.countP isAbortEv (Reset sessW5).2.1 = sessW5.outstanding.length) :=
  ⟨by decide, claim_C5 sessW5 (by decide)⟩

/-- The externally triggerable operations of a session: asynchronous sends,
outbound responses, timer firings, inbound messages, teardown — each with
the host-controlled inputs it depends on. -/
inductive Op
  | send (hasH hasF : Bool) (msg : J) (timeout : Option Nat) (writeOk : Bool)
  | respond (request : J) (error : Option String) (body : J) (writeOk : Bool)
  | timerFired (tid : Nat)
  | recv (m : J)
  | reset

/-- Run one operation; a raised flag does not stop the session object from
being used further, exactly as in Python. -/
def execOp (render : String → J → Option String) (s : Sess) :
    Op → Sess × List Ev × Bool
  | Op.send hh hf msg t w => DoRequest s hh hf msg t w
  | Op.respond r e b w => DoResponse s r e b w
  | Op.timerFired tid => OnRequestTimeout s tid
  | Op.recv m => OnMessageReceived render s m
  | Op.reset => Reset s

/-- Run a list of operations, concatenating the event traces. -/
def runOps (render : String → J → Option String) : Sess → List Op → Sess × List Ev
  | s, [] => (s, [])
  | s, op :: ops =>
    ((runOps render (execOp render s op).1 ops).1,
     (execOp render s op).2.1 ++ (runOps render (execOp render s op).1 ops).2)

/-- The sequence numbers assigned in an event trace, in order. -/
def assignedSeqs (evs : List Ev) : List Nat :=
  evs.filterMap (fun e => match e with | Ev.seqAssigned n => some n | _ => none)

/-- The ledger-bound invariant of claim C3: no outstanding entry carries a
sequence number at or above the next one to assign. -/
def LedgerInv (s : Sess) : Prop := ∀ kp ∈ s.outstanding, kp.1 < s.nextId

theorem assignedSeqs_append (a b : List Ev) :
    assignedSeqs (a ++ b) = assignedSeqs a ++ assignedSeqs b := by
  simp [assignedSeqs]

theorem assignedSeqs_KillTimer (p : Pending) :
    assignedSeqs (KillTimer p).2 = [] := by
  cases hp : p.expiry <;> simp [KillTimer, hp, assignedSeqs]

theorem assignedSeqs_AbortRequest (p : Pending) (r : String) :
    assignedSeqs (AbortRequest p r).2.1 = [] := by
  simp only [AbortRequest]
  by_cases hf : p.hasFailure = true
  · rw [if_pos hf]
    cases hexp : p.expiry <;> simp [KillTimer, hexp, assignedSeqs]
  · rw [if_neg hf]
    cases hc : jLook p.msg "command" <;>
      cases hexp : p.expiry <;> simp [KillTimer, hexp, assignedSeqs]

theorem assignedSeqs_walkFailure (hs : List Handler) :
    ∀ (i : Nat) (r om rm : J), assignedSeqs (walkFailure i hs r om rm) = [] := by
  induction hs with
  | nil => intro i r om rm; rfl
  | cons h rest ih =>
    intro i r om rm
    unfold walkFailure
    by_cases h1 : h.hasOnFailure = true
    · rw [if_pos h1]
      by_cases h2 : h.onFailureRet r om rm = true
      · rw [if_pos h2]; rfl
      · rw [if_neg h2]; exact ih (i + 1) r om rm
    · rw [if_neg h1]; exact ih (i + 1) r om rm

theorem assignedSeqs_walkEvent (hs : List Handler) :
    ∀ (i : Nat) (name : String) (m : J),
      assignedSeqs (walkEvent i hs name m) = [] := by
  induction hs with
  | nil => intro i name m; rfl
  | cons h rest ih =>
    intro i name m
    unfold walkEvent
    by_cases h1 : h.eventCap name = true
    · rw [if_pos h1]
      by_cases h2 : h.onEventRet name m = true
      · rw [if_pos h2]; rfl
      · rw [if_neg h2]; exact ih (i + 1) name m
    · rw [if_neg h1]; exact ih (i + 1) name m

theorem assignedSeqs_walkRequest (hs : List Handler) :
    ∀ (i : Nat) (name : String) (m : J),
      assignedSeqs (walkRequest i hs name m) = [] := by
  induction hs with
  | nil => intro i name m; rfl
  | cons h rest ih =>
    intro i name m
    unfold walkRequest
    by_cases h1 : h.reqCap name = true
    · rw [if_pos h1]
      by_cases h2 : h.onReqRet name m = true
      · rw [if_pos h2]; rfl
      · rw [if_neg h2]; exact ih (i + 1) name m
    · rw [if_neg h1]; exact ih (i + 1) name m

theorem assignedSeqs_deriveReason {render : String → J → Option String}
    {m : J} {re : J × List Ev} (h : deriveReason render m = some re) :
    assignedSeqs re.2 = [] := by
  simp only [deriveReason] at h
  split at h
  · cases h; rfl
  · split at h
    · split at h
      · cases h; rfl
      · cases h; simp [assignedSeqs]
    · cases h; rfl
  · exact absurd h (by simp)

theorem assignedSeqs_resolveAfterKill (render : String → J → Option String)
    (hs : List Handler) (p2 : Pending) (evk : List Ev) (m : J) :
    assignedSeqs (resolveAfterKill render hs p2 evk m).1 = assignedSeqs evk := by
  unfold resolveAfterKill
  split
  · rfl
  · split
    · split
      · simp [assignedSeqs_append, assignedSeqs]
      · rfl
    · split
      · rfl
      · rename_i reason evr heq
        have hevr : assignedSeqs evr = [] := assignedSeqs_deriveReason heq
        split
        · rw [assignedSeqs_append, assignedSeqs_append, hevr]
          rw [show assignedSeqs [Ev.logFailHandled reason,
            Ev.failureCall p2 reason m] = [] from rfl]
          simp
        · have hw : assignedSeqs (Ev.logFailUnhandled reason ::
              walkFailure 0 hs reason p2.msg m) = [] := by
            show assignedSeqs (walkFailure 0 hs reason p2.msg m) = []
            exact assignedSeqs_walkFailure hs 0 reason p2.msg m
          rw [assignedSeqs_append, assignedSeqs_append, hevr, hw]
          simp

theorem lpopInt_mem :
    ∀ {l : List (Nat × Pending)} {k : Int} {p : Pending}
      {rest : List (Nat × Pending)},
      lpopInt l k = some (p, rest) → ∀ x ∈ rest, x ∈ l := by
  intro l
  induction l with
  | nil => intro k p rest h; exact absurd h (by simp [lpopInt])
  | cons kp tl ih =>
    intro k p rest h x hx
    rcases kp with ⟨k0, p0⟩
    unfold lpopInt at h
    by_cases hk : (k0 : Int) = k
    · rw [if_pos hk] at h
      simp at h
      rw [← h.2] at hx
      exact List.mem_cons_of_mem _ hx
    · rw [if_neg hk] at h
      cases htl : lpopInt tl k with
      | none => rw [htl] at h; exact absurd h (by simp)
      | some pr =>
        rcases pr with ⟨q, r⟩
        rw [htl] at h
        simp at h
        rw [← h.2] at hx
        rcases List.mem_cons.mp hx with hx0 | hxr
        · exact hx0 ▸ List.mem_cons_self _ _
        · exact List.mem_cons_of_mem _ (ih htl x hxr)

theorem lset_keys :
    ∀ {l : List (Nat × Pending)} {k : Nat} {p : Pending} {k' : Nat},
      k' ∈ ledgerKeys (lset l k p) → k' ∈ ledgerKeys l ∨ k' = k := by
  intro l
  induction l with
  | nil =>
    intro k p k' h
    simp [lset, ledgerKeys] at h
    exact Or.inr h
  | cons kp tl ih =>
    intro k p k' h
    rcases kp with ⟨k0, p0⟩
    by_cases hk : k0 = k
    · have he : lset ((k0, p0) :: tl) k p = (k0, p) :: tl := by
        show (if k0 = k then (k0, p) :: tl else (k0, p0) :: lset tl k p) =
          (k0, p) :: tl
        rw [if_pos hk]
      rw [he] at h
      rw [show ledgerKeys ((k0, p) :: tl) = k0 :: ledgerKeys tl from rfl] at h
      rw [show ledgerKeys ((k0, p0) :: tl) = k0 :: ledgerKeys tl from rfl]
      rcases List.mem_cons.mp h with h0 | h1
      · exact Or.inl (h0 ▸ List.mem_cons_self _ _)
      · exact Or.inl (List.mem_cons_of_mem _ h1)
    · have he : lset ((k0, p0) :: tl) k p = (k0, p0) :: lset tl k p := by
        show (if k0 = k then (k0, p) :: tl else (k0, p0) :: lset tl k p) =
          (k0, p0) :: lset tl k p
        rw [if_neg hk]
      rw [he] at h
      rw [show ledgerKeys ((k0, p0) :: lset tl k p) =
        k0 :: ledgerKeys (lset tl k p) from rfl] at h
      rw [show ledgerKeys ((k0, p0) :: tl) = k0 :: ledgerKeys tl from rfl]
      rcases List.mem_cons.mp h with h0 | h1
      · exact Or.inl (h0 ▸ List.mem_cons_self _ _)
      · rcases ih h1 with ha | hb
        · exact Or.inl (List.mem_cons_of_mem _ ha)
        · exact Or.inr hb

theorem drainRev_rem_mem :
    ∀ {l : List (Nat × Pending)}, ∀ x ∈ (drainRev l).2.1, x ∈ l := by
  intro l
  induction l with
  | nil => intro x hx; simp [drainRev] at hx
  | cons kp tl ih =>
    intro x hx
    rcases kp with ⟨k, p⟩
    simp only [drainRev] at hx
    split at hx
    · exact List.mem_cons_of_mem _ (ih x hx)
    · exact List.mem_cons_of_mem _ hx

theorem assignedSeqs_drainRev :
    ∀ l : List (Nat × Pending), assignedSeqs (drainRev l).1 = [] := by
  intro l
  induction l with
  | nil => rfl
  | cons kp tl ih =>
    rcases kp with ⟨k, p⟩
    simp only [drainRev]
    split
    · rw [assignedSeqs_append, assignedSeqs_AbortRequest, ih]
      rfl
    · exact assignedSeqs_AbortRequest p "Closing down"

theorem respBranch_frame (render : String → J → Option String) (s : Sess) (m : J) :
    (respBranch render s m).1.nextId = s.nextId ∧
    (∀ kp ∈ (respBranch render s m).1.outstanding, kp ∈ s.outstanding) ∧
    assignedSeqs (respBranch render s m).2.1 = [] := by
  simp only [respBranch]
  split
  · exact ⟨rfl, fun kp h => h, rfl⟩
  · split
    · exact ⟨rfl, fun kp h => h, rfl⟩
    · split
      · exact ⟨rfl, fun kp h => h, rfl⟩
      · rename_i p rest heq
        refine ⟨rfl, ?_, ?_⟩
        · intro kp h
          unfold lpopByJ at heq
          cases hko : keyOfJ _ with
          | none => rw [hko] at heq; exact absurd heq (by simp)
          | some n => rw [hko] at heq; exact lpopInt_mem heq kp h
        · show assignedSeqs (resolveEntry render (s.handlers.getD []) p m).1 = []
          unfold resolveEntry
          rw [assignedSeqs_resolveAfterKill]
          exact assignedSeqs_KillTimer p

theorem eventBranch_frame (s : Sess) (m : J) :
    (eventBranch s m).1 = s ∧ assignedSeqs (eventBranch s m).2.1 = [] := by
  unfold eventBranch
  split
  · exact ⟨rfl, assignedSeqs_walkEvent _ _ _ _⟩
  · exact ⟨rfl, rfl⟩
  · exact ⟨rfl, rfl⟩

theorem reqBranch_frame (s : Sess) (m : J) :
    (reqBranch s m).1 = s ∧ assignedSeqs (reqBranch s m).2.1 = [] := by
  unfold reqBranch
  split
  · exact ⟨rfl, assignedSeqs_walkRequest _ _ _ _⟩
  · exact ⟨rfl, rfl⟩
  · exact ⟨rfl, rfl⟩

theorem recv_frame (render : String → J → Option String) (s : Sess) (m : J) :
    (OnMessageReceived render s m).1.nextId = s.nextId ∧
    (∀ kp ∈ (OnMessageReceived render s m).1.outstanding, kp ∈ s.outstanding) ∧
    assignedSeqs (OnMessageReceived render s m).2.1 = [] := by
  unfold OnMessageReceived
  split
  · split
    · exact ⟨rfl, fun kp h => h, rfl⟩
    · split
      · exact respBranch_frame render s m
      · split
        · rcases eventBranch_frame s m with ⟨h1, h2⟩
          exact ⟨by rw [h1], fun kp h => by rw [h1] at h; exact h, h2⟩
        · split
          · rcases reqBranch_frame s m with ⟨h1, h2⟩
            exact ⟨by rw [h1], fun kp h => by rw [h1] at h; exact h, h2⟩
          · exact ⟨rfl, fun kp h => h, rfl⟩
  · exact ⟨rfl, fun kp h => h, rfl⟩

theorem timeout_frame (s : Sess) (tid : Nat) :
    (OnRequestTimeout s tid).1.nextId = s.nextId ∧
    (∀ kp ∈ (OnRequestTimeout s tid).1.outstanding, kp ∈ s.outstanding) ∧
    assignedSeqs (OnRequestTimeout s tid).2.1 = [] := by
  simp only [OnRequestTimeout]
  split
  · exact ⟨rfl, fun kp h => h, rfl⟩
  · split
    · exact ⟨rfl, fun kp h => h, rfl⟩
    · rename_i p rest heq
      exact ⟨rfl, fun kp h => lpopInt_mem heq kp h,
        assignedSeqs_AbortRequest p "Timeout"⟩

theorem reset_frame (s : Sess) :
    (Reset s).1.nextId = s.nextId ∧
    (∀ kp ∈ (Reset s).1.outstanding, kp ∈ s.outstanding) ∧
    assignedSeqs (Reset s).2.1 = [] := by
  refine ⟨rfl, ?_, ?_⟩
  · intro kp h
    have h1 : kp ∈ (drainRev s.outstanding.reverse).2.1 :=
      List.mem_reverse.mp h
    exact List.mem_reverse.mp (drainRev_rem_mem kp h1)
  · exact assignedSeqs_drainRev s.outstanding.reverse

theorem assignedSeqs_SendMessage (s : Sess) (m : J) (w : Bool) :
    assignedSeqs (SendMessage s m w).2 = [] := by
  simp only [SendMessage]
  split <;> rfl

theorem DoRequest_frame (s : Sess) (hh hf : Bool) (msg : J) (t : Option Nat)
    (w : Bool) :
    (DoRequest s hh hf msg t w).1.nextId = s.nextId + 1 ∧
    (∀ k ∈ ledgerKeys (DoRequest s hh hf msg t w).1.outstanding,
      k ∈ ledgerKeys s.outstanding ∨ k = s.nextId) ∧
    assignedSeqs (DoRequest s hh hf msg t w).2.1 = [s.nextId] := by
  simp only [DoRequest]
  split
  · exact ⟨rfl, fun k h => Or.inl h, rfl⟩
  · split
    · exact ⟨rfl, fun k h => Or.inl h, rfl⟩
    · split
      · refine ⟨rfl, fun k h => lset_keys h, ?_⟩
        show s.nextId :: assignedSeqs (SendMessage _ _ w).2 = [s.nextId]
        rw [assignedSeqs_SendMessage]
      · refine ⟨rfl, ?_, ?_⟩
        · intro k h
          rcases lset_keys h with h1 | h2
          · exact lset_keys h1
          · exact Or.inr h2
        · rw [assignedSeqs_append, assignedSeqs_AbortRequest]
          rw [show assignedSeqs (Ev.seqAssigned s.nextId :: Ev.timerStart _ _ ::
            (SendMessage _ _ w).2) = [s.nextId] from by
              show s.nextId :: assignedSeqs (SendMessage _ _ w).2 = [s.nextId]
              rw [assignedSeqs_SendMessage]]
          rfl

theorem DoResponse_frame (s : Sess) (r : J) (e : Option String) (b : J)
    (w : Bool) :
    (DoResponse s r e b w).1.nextId = s.nextId + 1 ∧
    (DoResponse s r e b w).1.outstanding = s.outstanding ∧
    assignedSeqs (DoResponse s r e b w).2.1 = [s.nextId] := by
  simp only [DoResponse]
  split
  · exact ⟨rfl, rfl, rfl⟩
  · split
    · exact ⟨rfl, rfl, rfl⟩
    · refine ⟨rfl, rfl, ?_⟩
      show s.nextId :: assignedSeqs (SendMessage _ _ w).2 = [s.nextId]
      rw [assignedSeqs_SendMessage]

theorem ledgerKeys_sub {l l' : List (Nat × Pending)}
    (h : ∀ kp ∈ l', kp ∈ l) : ∀ k ∈ ledgerKeys l', k ∈ ledgerKeys l := by
  intro k hk
  rcases List.mem_map.mp hk with ⟨kp, hkp, hEq⟩
  exact hEq ▸ List.mem_map_of_mem Prod.fst (h kp hkp)

theorem execOp_frames (render : String → J → Option String) (s : Sess)
    (op : Op) :
    ((execOp render s op).1.nextId = s.nextId ∧
      assignedSeqs (execOp render s op).2.1 = [] ∧
      ∀ k ∈ ledgerKeys (execOp render s op).1.outstanding,
        k ∈ ledgerKeys s.outstanding) ∨
    ((execOp render s op).1.nextId = s.nextId + 1 ∧
      assignedSeqs (execOp render s op).2.1 = [s.nextId] ∧
      ∀ k ∈ ledgerKeys (execOp render s op).1.outstanding,
        k ∈ ledgerKeys s.outstanding ∨ k = s.nextId) := by
  cases op with
  | send hh hf msg t w =>
    rcases DoRequest_frame s hh hf msg t w with ⟨h1, h2, h3⟩
    exact Or.inr ⟨h1, h3, h2⟩
  | respond r e b w =>
    rcases DoResponse_frame s r e b w with ⟨h1, h2, h3⟩
    refine Or.inr ⟨h1, h3, fun k hk => Or.inl ?_⟩
    rw [show (execOp render s (Op.respond r e b w)).1.outstanding =
      s.outstanding from h2] at hk
    exact hk
  | timerFired tid =>
    rcases timeout_frame s tid with ⟨h1, h2, h3⟩
    exact Or.inl ⟨h1, h3, ledgerKeys_sub h2⟩
  | recv m =>
    rcases recv_frame render s m with ⟨h1, h2, h3⟩
    exact Or.inl ⟨h1, h3, ledgerKeys_sub h2⟩
  | reset =>
    rcases reset_frame s with ⟨h1, h2, h3⟩
    exact Or.inl ⟨h1, h3, ledgerKeys_sub h2⟩

theorem execOp_inv (render : String → J → Option String) {s : Sess} (op : Op)
    (h : LedgerInv s) : LedgerInv (execOp render s op).1 := by
  rcases execOp_frames render s op with ⟨h1, _, h3⟩ | ⟨h1, _, h3⟩
  · intro kp hkp
    have hk := h3 kp.1 (List.mem_map_of_mem Prod.fst hkp)
    rcases List.mem_map.mp hk with ⟨kp0, hkp0, hEq⟩
    have hlt := h kp0 hkp0
    omega
  · intro kp hkp
    rcases h3 kp.1 (List.mem_map_of_mem Prod.fst hkp) with hk | hk
    · rcases List.mem_map.mp hk with ⟨kp0, hkp0, hEq⟩
      have hlt := h kp0 hkp0
      omega
    · omega

theorem runOps_sorted (render : String → J → Option String) :
    ∀ (ops : List Op) (s : Sess),
      List.Pairwise (fun a b => a < b)
        (assignedSeqs (runOps render s ops).2) ∧
      ∀ n ∈ assignedSeqs (runOps render s ops).2, s.nextId ≤ n := by
  intro ops
  induction ops with
  | nil =>
    intro s
    exact ⟨List.Pairwise.nil, fun n hn => absurd hn (by
      simp [runOps, assignedSeqs])⟩
  | cons op rest ih =>
    intro s
    rw [show (runOps render s (op :: rest)).2 = (execOp render s op).2.1 ++
      (runOps render (execOp render s op).1 rest).2 from rfl]
    rw [assignedSeqs_append]
    rcases execOp_frames render s op with ⟨h1, h2, _⟩ | ⟨h1, h2, _⟩
    · rw [h2, List.nil_append]
      refine ⟨(ih (execOp render s op).1).1, ?_⟩
      intro n hn
      have hle := (ih (execOp render s op).1).2 n hn
      omega
    · rw [h2]
      constructor
      · rw [List.singleton_append]
        refine List.pairwise_cons.mpr ⟨?_, (ih (execOp render s op).1).1⟩
        intro n hn
        have hle := (ih (execOp render s op).1).2 n hn
        omega
      · intro n hn
        rw [List.singleton_append, List.mem_cons] at hn
        rcases hn with hn | hn
        · omega
        · have hle := (ih (execOp render s op).1).2 n hn
          omega

theorem runOps_inv (render : String → J → Option String) :
    ∀ (ops : List Op) (s : Sess),
      LedgerInv s → LedgerInv (runOps render s ops).1 := by
  intro ops
  induction ops with
  | nil => intro s h; exact h
  | cons op rest ih =>
    intro s h
    exact ih (execOp render s op).1 (execOp_inv render op h)

/-- Claim C3: for every interleaving of sends, outbound responses, inbound
messages, timer firings and teardown within one session, the sequence
numbers assigned (one per `DoRequest`, and `DoResponse` draws from the same
counter) form a strictly increasing — hence unique, never reused — list,
and after every prefix of operations the ledger contains no entry whose
sequence number is ≥ the next sequence number to assign. -/
theorem claim_C3 (render : String → J → Option String)
    (hs : Option (List Handler)) (w : Bool) (st at0 : Option Nat)
    (ops : List Op) :
    List.Pairwise (fun a b => a < b)
      (assignedSeqs (runOps render (initSess hs w st at0) ops).2) ∧
    ∀ pre suf, ops = pre ++ suf →
      LedgerInv (runOps render (initSess hs w st at0) pre).1 := by
  constructor
  · exact (runOps_sorted render ops (initSess hs w st at0)).1
  · intro pre suf hpre
    apply runOps_inv
    intro kp hkp
    simp [initSess] at hkp

/-- A concrete operation list exercising sends, an outbound response, an
inbound duplicate response, a timer firing and teardown. -/
def opsW : List Op :=
  [Op.send true true (jobj [("command", J.str "a")]) none true,
   Op.respond (jobj [("seq", J.num 9), ("command", J.str "b")]) none J.null
     true,
   Op.recv (jobj [("type", J.str "response"), ("request_seq", J.num 7),
     ("success", J.bool true)]),
   Op.timerFired 0,
   Op.send true false (jobj [("command", J.str "c")]) none true,
   Op.reset]

theorem claim_C3_witness :
    List.Pairwise (fun a b => a < b)
      (assignedSeqs (runOps (fun _ _ => none)
        (initSess (some []) true none none) opsW).2) ∧
    LedgerInv (runOps (fun _ _ => none)
      (initSess (some []) true none none) (opsW.take 4)).1 :=
  ⟨(claim_C3 (fun _ _ => none) (some []) true none none opsW).1,
   (claim_C3 (fun _ _ => none) (some []) true none none opsW).2
     (opsW.take 4) (opsW.drop 4) (List.take_append_drop 4 opsW).symm⟩

/-! ### The outbound wire framing of `_SendMessage` (claim C7)

`_SendMessage` serialises the envelope with `json.dumps` (its default
`ensure_ascii = True`) and frames it as
`'Content-Length: {0}\r\n\r\n{1}'.format( len( msg ), msg )` — `len( msg )`
being the *character* count of the serialised text.  We model the
serialiser at code-point level: `dumps` returns the list of code points of
the JSON text, mirroring `json.encoder.py_encode_basestring_ascii` (every
code point outside `0x20..0x7e` is escaped, `"` and backslash always). -/

/-- One lowercase hex digit, as in CPython's `'\\u{0:04x}'.format`. -/
def hexDigit (n : Nat) : Nat := if n < 10 then 48 + n else 87 + n

/-- A six-character `\uXXXX` escape. -/
def uEsc (n : Nat) : List Nat :=
  [92, 117, hexDigit (n / 4096 % 16), hexDigit (n / 256 % 16),
   hexDigit (n / 16 % 16), hexDigit (n % 16)]

/-- `py_encode_basestring_ascii` on one code point: the two forced escapes,
the five short escapes, printable ASCII verbatim, `\uXXXX` otherwise —
with a surrogate pair above the BMP. -/
def escChar (c : Nat) : List Nat :=
  if c = 34 then [92, 34]
  else if c = 92 then [92, 92]
  else if c = 8 then [92, 98]
  else if c = 9 then [92, 116]
  else if c = 10 then [92, 110]
  else if c = 12 then [92, 102]
  else if c = 13 then [92, 114]
  else if 32 ≤ c ∧ c ≤ 126 then [c]
  else if c < 65536 then uEsc c
  else uEsc (55296 + (c - 65536) / 1024) ++ uEsc (56320 + (c - 65536) % 1024)

/-- A JSON string literal: quote, escaped code points, quote. -/
def strCodes (s : String) : List Nat :=
  34 :: ((s.data.map (fun ch => escChar ch.toNat)).flatten ++ [34])

def natDigitsAux : Nat → Nat → List Nat → List Nat
  | 0, _, acc => acc
  | fuel + 1, n, acc =>
    if n < 10 then (48 + n) :: acc
    else natDigitsAux fuel (n / 10) ((48 + n % 10) :: acc)

/-- Decimal digits of a natural number, as ASCII codes. -/
def natDigits (n : Nat) : List Nat := natDigitsAux (n + 1) n []

/-- `repr` of a Python int. -/
def intCodes (n : Int) : List Nat :=
  if n < 0 then 45 :: natDigits n.natAbs else natDigits n.toNat

/-- Where in the JSON text a node is being emitted: at the top of a value,
or continuing an array or object item chain (putting `', '` separators
between items, as `json.dumps`' default separators do). -/
inductive DM
  | top
  | arrTail
  | objTail

/-- `json.dumps` with its defaults (`ensure_ascii = True`, separators
`', '` and `': '`), as the list of code points of the output text. -/
def dumpsM : DM → J → List Nat
  | DM.top, J.null => [110, 117, 108, 108]
  | DM.top, J.bool true => [116, 114, 117, 101]
  | DM.top, J.bool false => [102, 97, 108, 115, 101]
  | DM.top, J.num n => intCodes n
  | DM.top, J.str s => strCodes s
  | DM.top, J.arrNil => [91, 93]
  | DM.top, J.arrCons x xs => 91 :: (dumpsM DM.top x ++ dumpsM DM.arrTail xs)
  | DM.top, J.objNil => [123, 125]
  | DM.top, J.objCons k v xs =>
    123 :: (strCodes k ++ [58, 32] ++ dumpsM DM.top v ++ dumpsM DM.objTail xs)
  | DM.arrTail, J.arrCons x xs =>
    44 :: 32 :: (dumpsM DM.top x ++ dumpsM DM.arrTail xs)
  | DM.arrTail, _ => [93]
  | DM.objTail, J.objCons k v xs =>
    44 :: 32 :: (strCodes k ++ [58, 32] ++ dumpsM DM.top v ++
      dumpsM DM.objTail xs)
  | DM.objTail, _ => [125]

def dumps (j : J) : List Nat := dumpsM DM.top j

/-- UTF-8 width of one code point. -/
def utf8Len (c : Nat) : Nat :=
  if c < 128 then 1 else if c < 2048 then 2 else if c < 65536 then 3 else 4

/-- Byte length of a list of code points in the wire (UTF-8) encoding. -/
def utf8ByteLen (cs : List Nat) : Nat := (cs.map utf8Len).sum

/-- The ASCII codes of `'Content-Length: '`. -/
def clHeader : List Nat :=
  [67, 111, 110, 116, 101, 110, 116, 45, 76, 101, 110, 103, 116, 104, 58, 32]

/-- The `data` string built by `_SendMessage` (line 207): the header names
`len( msg )`, the character count of the serialised payload. -/
def sendFrame (m : J) : List Nat :=
  clHeader ++ natDigits (dumps m).length ++ [13, 10, 13, 10] ++ dumps m

theorem hexDigit_lt {n : Nat} (h : n < 16) : hexDigit n < 128 := by
  unfold hexDigit
  split <;> omega

theorem uEsc_ascii (n : Nat) : ∀ c ∈ uEsc n, c < 128 := by
  intro c hc
  simp [uEsc] at hc
  rcases hc with h | h | h | h | h | h
  · omega
  · omega
  · exact h ▸ hexDigit_lt (Nat.mod_lt _ (by norm_num))
  · exact h ▸ hexDigit_lt (Nat.mod_lt _ (by norm_num))
  · exact h ▸ hexDigit_lt (Nat.mod_lt _ (by norm_num))
  · exact h ▸ hexDigit_lt (Nat.mod_lt _ (by norm_num))

theorem escChar_ascii (n : Nat) : ∀ c ∈ escChar n, c < 128 := by
  intro c hc
  unfold escChar at hc
  split_ifs at hc with h1 h2 h3 h4 h5 h6 h7 h8 h9
  · simp at hc; omega
  · simp at hc; omega
  · simp at hc; omega
  · simp at hc; omega
  · simp at hc; omega
  · simp at hc; omega
  · simp at hc; omega
  · simp at hc; omega
  · exact uEsc_ascii n c hc
  · rcases List.mem_append.mp hc with h | h
    · exact uEsc_ascii _ c h
    · exact uEsc_ascii _ c h

theorem strCodes_ascii (s : String) : ∀ c ∈ strCodes s, c < 128 := by
  intro c hc
  simp only [strCodes, List.mem_cons, List.mem_append] at hc
  rcases hc with h | h | h
  · omega
  · rcases List.mem_flatten.mp h with ⟨l, hl, hcl⟩
    rcases List.mem_map.mp hl with ⟨ch, _, hEq⟩
    exact escChar_ascii ch.toNat c (hEq ▸ hcl)
  · simp at h; omega

theorem natDigitsAux_ascii : ∀ (fuel n : Nat) (acc : List Nat),
    (∀ c ∈ acc, c < 128) → ∀ c ∈ natDigitsAux fuel n acc, c < 128 := by
  intro fuel
  induction fuel with
  | zero => intro n acc h c hc; exact h c hc
  | succ f ih =>
    intro n acc h c hc
    simp only [natDigitsAux] at hc
    split at hc
    · rcases List.mem_cons.mp hc with h1 | h1
      · omega
      · exact h c h1
    · refine ih (n / 10) ((48 + n % 10) :: acc) ?_ c hc
      intro x hx
      rcases List.mem_cons.mp hx with h1 | h1
      · have := Nat.mod_lt n (show 0 < 10 by norm_num)
        omega
      · exact h x h1

theorem natDigits_ascii (n : Nat) : ∀ c ∈ natDigits n, c < 128 :=
  natDigitsAux_ascii (n + 1) n [] (by intro c hc; simp at hc)

theorem intCodes_ascii (n : Int) : ∀ c ∈ intCodes n, c < 128 := by
  intro c hc
  unfold intCodes at hc
  split at hc
  · rcases List.mem_cons.mp hc with h | h
    · omega
    · exact natDigits_ascii _ c h
  · exact natDigits_ascii _ c hc

theorem dumpsM_ascii : ∀ (j : J) (m : DM), ∀ c ∈ dumpsM m j, c < 128 := by
  intro j
  induction j with
  | null => intro m c hc; cases m <;> simp [dumpsM] at hc <;> omega
  | bool b =>
    intro m c hc
    cases m <;> cases b <;> simp [dumpsM] at hc <;> omega
  | num n =>
    intro m c hc
    cases m with
    | top => exact intCodes_ascii n c hc
    | arrTail => simp [dumpsM] at hc; omega
    | objTail => simp [dumpsM] at hc; omega
  | str s =>
    intro m c hc
    cases m with
    | top => exact strCodes_ascii s c hc
    | arrTail => simp [dumpsM] at hc; omega
    | objTail => simp [dumpsM] at hc; omega
  | arrNil => intro m c hc; cases m <;> simp [dumpsM] at hc <;> omega
  | objNil => intro m c hc; cases m <;> simp [dumpsM] at hc <;> omega
  | arrCons x xs ihx ihxs =>
    intro m c hc
    cases m with
    | top =>
      simp only [dumpsM, List.mem_cons, List.mem_append] at hc
      rcases hc with h | h | h
      · omega
      · exact ihx DM.top c h
      · exact ihxs DM.arrTail c h
    | arrTail =>
      simp only [dumpsM, List.mem_cons, List.mem_append] at hc
      rcases hc with h | h | h | h
      · omega
      · omega
      · exact ihx DM.top c h
      · exact ihxs DM.arrTail c h
    | objTail => simp [dumpsM] at hc; omega
  | objCons k v xs ihv ihxs =>
    intro m c hc
    cases m with
    | top =>
      simp only [dumpsM] at hc
      rcases List.mem_cons.mp hc with h | h
      · omega
      · rcases List.mem_append.mp h with h | h
        · rcases List.mem_append.mp h with h | h
          · rcases List.mem_append.mp h with h | h
            · exact strCodes_ascii k c h
            · simp at h; omega
          · exact ihv DM.top c h
        · exact ihxs DM.objTail c h
    | arrTail => simp [dumpsM] at hc; omega
    | objTail =>
      simp only [dumpsM] at hc
      rcases List.mem_cons.mp hc with h | h
      · omega
      · rcases List.mem_cons.mp h with h | h
        · omega
        · rcases List.mem_append.mp h with h | h
          · rcases List.mem_append.mp h with h | h
            · rcases List.mem_append.mp h with h | h
              · exact strCodes_ascii k c h
              · simp at h; omega
            · exact ihv DM.top c h
          · exact ihxs DM.objTail c h

theorem dumps_ascii (j : J) : ∀ c ∈ dumps j, c < 128 := dumpsM_ascii j DM.top

theorem utf8ByteLen_of_ascii :
    ∀ {cs : List Nat}, (∀ c ∈ cs, c < 128) → utf8ByteLen cs = cs.length := by
  intro cs
  induction cs with
  | nil => intro _; rfl
  | cons c tl ih =>
    intro h
    have hc : c < 128 := h c (List.mem_cons_self c tl)
    have h1 : utf8Len c = 1 := by unfold utf8Len; rw [if_pos hc]
    rw [show utf8ByteLen (c :: tl) = utf8Len c + utf8ByteLen tl from by
      simp [utf8ByteLen]]
    rw [h1, ih (fun x hx => h x (List.mem_cons_of_mem c hx))]
    simp [Nat.add_comm]

/-- Claim C7: for every outbound envelope, the `data` built by
`_SendMessage` is `Content-Length: <N>\r\n\r\n<payload>` where `N` — the
`len( msg )` character count the code writes — equals the byte length of
the serialised payload in the wire (UTF-8) encoding: `json.dumps` with its
default `ensure_ascii = True` escapes every non-ASCII character, so each
character of the payload occupies exactly one byte on the wire. -/
theorem claim_C7 (m : J) :
    sendFrame m = clHeader ++ natDigits (utf8ByteLen (dumps m)) ++
      [13, 10, 13, 10] ++ dumps m ∧
    utf8ByteLen (dumps m) = (dumps m).length := by
  have hlen : utf8ByteLen (dumps m) = (dumps m).length :=
    utf8ByteLen_of_ascii (dumps_ascii m)
  exact ⟨by rw [sendFrame, hlen], hlen⟩
